import Mathlib

/-!
# A verification development for `my::forward_list` (src/forward_list.hpp)

The container is a chain of `std::shared_ptr`-linked nodes.  The embedding keeps
the pointer structure explicit:

* the free store is a list of node cells, a non-null pointer is the index of
  its cell, `std::make_shared` appends a cell.  Cells are never reclaimed: a
  `shared_ptr` keeps every node it can reach alive, and a reclaimed node is one
  nobody can reach, so dropping the reclamation loses no observable behaviour.
* every member function is a function from the store and the list object to a
  new store and list object (or to an exception / undefined behaviour).
* `size_type` is `size_t`.  `++m_size` is modelled without wrap-around: the
  counter is incremented once per allocated node and the number of nodes is
  bounded by the address space.  `--m_size` is modelled with the unsigned
  wrap-around at zero.
-/

namespace my

/-! ## Data model -/

/-- Pointer type `std::shared_ptr<forward_list_node<T>>`: `none` is `nullptr`,
`some a` owns the node stored in cell `a` of the free store. -/
abbrev node_pointer := Option Nat

/-- Class `forward_list_node<T>`: the two public members `next` and `value`. -/
structure forward_list_node (T : Type) where
  next : node_pointer := none
  value : T
deriving DecidableEq, Repr

/-- The free store: cell `a` holds the node a pointer `some a` refers to. -/
abbrev Heap (T : Type) := List (forward_list_node T)

/-- Class `forward_list_iterator<T>`: a cursor holding one node pointer. -/
structure forward_list_iterator where
  m_node : node_pointer
deriving DecidableEq, Repr

/-- Class `forward_list<T>`: the three private members with their default
member initialisers (`m_size{0}`, `m_head{nullptr}`, `m_tail{nullptr}`), so that
`{}` is the default-constructed list. -/
structure forward_list where
  m_size : Nat := 0
  m_head : node_pointer := none
  m_tail : node_pointer := none
deriving DecidableEq, Repr

/-- Ways an operation can end other than by returning.  `list_was_empty s` is
`throw std::exception("list was empty")`, raised in state `s`;
`undefined_behaviour` is a dereference of a null (or dangling) pointer;
`out_of_fuel` is the model's cut-off for loops over the store. -/
inductive Exn (σ : Type) where
  | list_was_empty (s : σ)
  | undefined_behaviour
  | out_of_fuel
deriving DecidableEq, Repr

/-- Unsigned decrement `--m_size` on `size_t` (64 bit): zero wraps around to
`SIZE_MAX`. -/
def size_dec (n : Nat) : Nat := if n = 0 then 2 ^ 64 - 1 else n - 1

/-! ## Pointer primitives -/

variable {T : Type} {σ : Type}

/-- Expression `std::make_shared<node>(...)`: a fresh cell at the end of the store. -/
def make_shared (h : Heap T) (n : forward_list_node T) : Heap T × Nat :=
  (h ++ [n], h.length)

/-- Expression `p->` : the node a pointer refers to; undefined on `nullptr`. -/
def load (h : Heap T) (p : node_pointer) : Except (Exn σ) (forward_list_node T) :=
  match p with
  | none => .error .undefined_behaviour
  | some a =>
    match h[a]? with
    | none => .error .undefined_behaviour
    | some n => .ok n

/-- Statement `p->next = q`. -/
def store_next (h : Heap T) (p : node_pointer) (q : node_pointer) : Except (Exn σ) (Heap T) :=
  match p with
  | none => .error .undefined_behaviour
  | some a =>
    match h[a]? with
    | none => .error .undefined_behaviour
    | some n => .ok (h.set a { n with next := q })

/-- Statement `p->value = v`: a write through a `value_type&` obtained from
`front()` or from `operator*`. -/
def store_value (h : Heap T) (p : node_pointer) (v : T) : Except (Exn σ) (Heap T) :=
  match p with
  | none => .error .undefined_behaviour
  | some a =>
    match h[a]? with
    | none => .error .undefined_behaviour
    | some n => .ok (h.set a { n with value := v })

/-! ## `forward_list_iterator` -/

namespace forward_list_iterator

/-- Pre-increment `operator++()`: `m_node = m_node->next; return m_node;`.
The result is both the new cursor and the returned iterator. -/
def incr (h : Heap T) (it : forward_list_iterator) : Except (Exn σ) forward_list_iterator := do
  let n ← load h it.m_node
  pure ⟨n.next⟩

/-- Post-increment `operator++(int)`: the new cursor and the returned (old) iterator. -/
def post_incr (h : Heap T) (it : forward_list_iterator) :
    Except (Exn σ) (forward_list_iterator × forward_list_iterator) := do
  let rtrn := it.m_node
  let n ← load h it.m_node
  pure (⟨n.next⟩, ⟨rtrn⟩)

/-- Comparison `operator==`: identity of the referenced node. -/
def eq (a b : forward_list_iterator) : Bool := a.m_node == b.m_node

/-- Comparison `operator!=`. -/
def ne (a b : forward_list_iterator) : Bool := a.m_node != b.m_node

/-- Dereference `operator*`: `m_node->value`. -/
def deref (h : Heap T) (it : forward_list_iterator) : Except (Exn σ) T := do
  let n ← load h it.m_node
  pure n.value

end forward_list_iterator

/-! ## `forward_list` -/

namespace forward_list

/-- Member `push_front` (both overloads have the same body):
`current = make_shared<node>(value, m_head); m_head = current; ++m_size;`. -/
def push_front (h : Heap T) (l : forward_list) (value : T) : Heap T × forward_list :=
  let (h1, current) := make_shared h { value := value, next := l.m_head }
  (h1, { l with m_head := some current, m_size := l.m_size + 1 })

/-- Member `pop_front`. -/
def pop_front (h : Heap T) (l : forward_list) :
    Except (Exn (Heap T × forward_list)) (Heap T × forward_list) := do
  if l.m_head = none then throw (.list_was_empty (h, l))
  let head := l.m_head
  let n ← load h head
  pure (h, { l with m_head := n.next, m_size := size_dec l.m_size })

/-- Member `emplace_after`.  Returns the new state and the iterator to the new node. -/
def emplace_after (h : Heap T) (l : forward_list) (position : forward_list_iterator) (value : T) :
    Except (Exn (Heap T × forward_list)) ((Heap T × forward_list) × forward_list_iterator) := do
  let pos := position.m_node
  let (h1, fresh) := make_shared h { value := value }
  let new_node : node_pointer := some fresh
  if pos = l.m_tail then
    let h2 ← store_next h1 l.m_tail new_node
    let t ← load h2 l.m_tail
    pure ((h2, { l with m_tail := t.next, m_size := l.m_size + 1 }), ⟨new_node⟩)
  else
    let p ← load h1 pos
    let next_tmp := p.next
    let h2 ← store_next h1 pos new_node
    let h3 ← store_next h2 new_node next_tmp
    pure ((h3, { l with m_size := l.m_size + 1 }), ⟨new_node⟩)

/-- Member `erase_after`.  Returns the new state and the iterator `++position`. -/
def erase_after (h : Heap T) (l : forward_list) (position : forward_list_iterator) :
    Except (Exn (Heap T × forward_list)) ((Heap T × forward_list) × forward_list_iterator) := do
  if l.m_head = none then throw (.list_was_empty (h, l))
  let pos := position.m_node
  let p ← load h pos
  let next_pos := p.next
  let q ← load h next_pos
  let h1 ←
    if pos.isSome && q.next.isNone then store_next h pos none
    else if pos.isSome then store_next h pos q.next
    else pure h
  let it ← forward_list_iterator.incr h1 position
  pure ((h1, { l with m_size := size_dec l.m_size }), it)

/-- Member `clear`: `while (m_size) pop_front();`, at most `fuel` iterations. -/
def clear : Nat → Heap T → forward_list →
    Except (Exn (Heap T × forward_list)) (Heap T × forward_list)
  | fuel, h, l =>
    if l.m_size = 0 then pure (h, l)
    else
      match fuel with
      | 0 => throw .out_of_fuel
      | fuel + 1 => do
        let (h1, l1) ← pop_front h l
        clear fuel h1 l1

/-- Member `empty`: `!m_head`. -/
def empty (l : forward_list) : Bool := l.m_head.isNone

/-- Member `size`. -/
def size (l : forward_list) : Nat := l.m_size

/-- The mutable `front()`: checked; the reference returned is the head node,
whose `value` member it designates. -/
def front (h : Heap T) (l : forward_list) :
    Except (Exn (Heap T × forward_list)) node_pointer := do
  if l.m_head = none then throw (.list_was_empty (h, l))
  let _ ← load h l.m_head
  pure l.m_head

/-- The `const` overload of `front()`: unchecked. -/
def front_const (h : Heap T) (l : forward_list) :
    Except (Exn (Heap T × forward_list)) node_pointer := do
  let _ ← load h l.m_head
  pure l.m_head

/-- Member `begin` (both overloads). -/
def begin (l : forward_list) : forward_list_iterator := ⟨l.m_head⟩

/-- Member `end` (both overloads) and `cend`: `m_tail ? m_tail->next : nullptr`. -/
def end_ (h : Heap T) (l : forward_list) : Except (Exn σ) forward_list_iterator :=
  match l.m_tail with
  | none => pure ⟨none⟩
  | some t => do
    let n ← load h (some t)
    pure ⟨n.next⟩

/-- Member `cbegin`: returns `m_tail`. -/
def cbegin (l : forward_list) : forward_list_iterator := ⟨l.m_tail⟩

/-- Member `cend`. -/
def cend (h : Heap T) (l : forward_list) : Except (Exn σ) forward_list_iterator :=
  end_ h l

/-- Constructor from `std::initializer_list`: walks the input from `rbegin` to
`rend` and pushes each element to the front. -/
def from_initializer_list (h : Heap T) (iList : List T) : Heap T × forward_list :=
  iList.reverse.foldl (fun s v => push_front s.1 s.2 v) (h, {})

/-- The `while` loop of the copy constructor; `current_node` and
`current_other_node` are never null inside it.  At most `fuel` iterations. -/
def copy_loop : Nat → Heap T → node_pointer → node_pointer →
    Except (Exn (Heap T)) (Heap T × node_pointer)
  | fuel, h, current_node, current_other_node => do
    let o ← load h current_other_node
    if o.next = none then pure (h, current_node)
    else
      match fuel with
      | 0 => throw .out_of_fuel
      | fuel + 1 => do
        let o1 ← load h o.next
        let (h1, fresh) := make_shared h { value := o1.value }
        let h2 ← store_next h1 current_node (some fresh)
        let c ← load h2 current_node
        let o2 ← load h2 current_other_node
        copy_loop fuel h2 c.next o2.next

/-- Copy constructor `forward_list(const forward_list& other)`.  The source
object is `const`; the state of a throw is the store. -/
def copy (fuel : Nat) (h : Heap T) (other : forward_list) :
    Except (Exn (Heap T)) (Heap T × forward_list) := do
  if other.m_head = none then throw (.list_was_empty h)
  let m_size := other.m_size
  let oh ← load h other.m_head
  let (h1, fresh) := make_shared h { value := oh.value }
  let current_node : node_pointer := some fresh
  let current_other_node := other.m_head
  let m_head := current_node
  let (h2, last) ← copy_loop fuel h1 current_node current_other_node
  let m_tail := last
  let h3 ← store_next h2 m_tail none
  pure (h3, { m_size := m_size, m_head := m_head, m_tail := m_tail })

end forward_list

/-! ## Client-side observations -/

/-- The loop `for (it = first; it != last; ++it) out.push_back(*it);`
that a client runs over an iterator pair, at most `fuel` iterations. -/
def traverse (h : Heap T) : Nat → forward_list_iterator → forward_list_iterator →
    Except (Exn Unit) (List T)
  | fuel, it, last =>
    if forward_list_iterator.ne it last then
      match fuel with
      | 0 => throw .out_of_fuel
      | fuel + 1 => do
        let v ← forward_list_iterator.deref h it
        let it1 ← forward_list_iterator.incr h it
        let rest ← traverse h fuel it1 last
        pure (v :: rest)
    else pure []

/-- Iteration of a list from `begin()` to `end()`.  The loop does not write to
the store, so `end()` has the same value in every round and is read once. -/
def values (fuel : Nat) (h : Heap T) (l : forward_list) : Except (Exn Unit) (List T) := do
  let last ← forward_list.end_ h l
  traverse h fuel l.begin last

/-- Iteration of a list from `cbegin()` to `cend()`: the same client loop over
the `const` iterator pair. -/
def cvalues (fuel : Nat) (h : Heap T) (l : forward_list) : Except (Exn Unit) (List T) := do
  let last ← forward_list.cend h l
  traverse h fuel l.cbegin last

/-- The iterator `std::next(first, i)`: `i` pre-increments of `first`. -/
def advance (h : Heap T) : Nat → forward_list_iterator → Except (Exn Unit) forward_list_iterator
  | 0, it => pure it
  | i + 1, it => do
    let it1 ← forward_list_iterator.incr h it
    advance h i it1

/-- Client expression `l.front()` read as a value: the mutable `front()` is
called and the reference it returns is read. -/
def read_front (h : Heap T) (l : forward_list) : Except (Exn (Heap T × forward_list)) T := do
  let r ← forward_list.front h l
  let node ← load h r
  pure node.value

/-- Client loop: `push_front(v1); ...; push_front(vN);` on the list `l`. -/
def push_all (h : Heap T) (l : forward_list) (vs : List T) : Heap T × forward_list :=
  vs.foldl (fun s v => forward_list.push_front s.1 s.2 v) (h, l)

/-- Client loop: `n` times read `front()` and then call `pop_front()`; the
values read are collected in order. -/
def drain : Nat → Heap T → forward_list →
    Except (Exn (Heap T × forward_list)) ((Heap T × forward_list) × List T)
  | 0, h, l => pure ((h, l), [])
  | n + 1, h, l => do
    let v ← read_front h l
    let s ← forward_list.pop_front h l
    let (s1, vs) ← drain n s.1 s.2
    pure (s1, v :: vs)

/-! ## Reachable states -/

/-- One call of a public mutating member on a list, with the precondition of
the member met: a position argument references the node at some index `i` of
the list (and for `erase_after` that node has a successor).  `assign` is a
write through the reference returned by `front()` or by `operator*` of an
iterator into the list. -/
inductive Step : Heap T × forward_list → Heap T × forward_list → Prop where
  | push_front (h : Heap T) (l : forward_list) (v : T) :
      Step (h, l) (forward_list.push_front h l v)
  | pop_front {h : Heap T} {l : forward_list} {s : Heap T × forward_list} :
      forward_list.pop_front h l = .ok s → Step (h, l) s
  | emplace_after {h : Heap T} {l : forward_list} {s : Heap T × forward_list}
      (i : Nat) (position : forward_list_iterator) (v : T) (it : forward_list_iterator) :
      i < l.m_size → advance h i l.begin = .ok position →
      forward_list.emplace_after h l position v = .ok (s, it) → Step (h, l) s
  | erase_after {h : Heap T} {l : forward_list} {s : Heap T × forward_list}
      (i : Nat) (position : forward_list_iterator) (it : forward_list_iterator) :
      i + 1 < l.m_size → advance h i l.begin = .ok position →
      forward_list.erase_after h l position = .ok (s, it) → Step (h, l) s
  | clear {h : Heap T} {l : forward_list} {s : Heap T × forward_list} (fuel : Nat) :
      forward_list.clear fuel h l = .ok s → Step (h, l) s
  | assign {h : Heap T} {l : forward_list} {h1 : Heap T}
      (i : Nat) (position : forward_list_iterator) (v : T) :
      i < l.m_size → advance h i l.begin = .ok position →
      (store_value h position.m_node v : Except (Exn Unit) (Heap T)) = .ok h1 →
      Step (h, l) (h1, l)

/-- A change of the store made by another object while the list `l` is not
touched: an allocation, or a write to a node that is not in the chain of `l`
(a write to the node `m_tail` refers to keeps its `next` null: no operation of
another object with its precondition met links a node behind it). -/
inductive Frame (l : forward_list) : Heap T → Heap T → Prop where
  | alloc (h : Heap T) (n : forward_list_node T) : Frame l h (h ++ [n])
  | write (h : Heap T) (a : Nat) (n : forward_list_node T) :
      (∀ i, advance h i l.begin ≠ .ok ⟨some a⟩) →
      (l.m_tail = some a → n.next = none) →
      Frame l h (h.set a n)

/-- The list states a program can reach through the public interface:
construction (default, initializer list, copy of a reachable list), the
mutating members with their preconditions met, and activity of other objects
in the same store. -/
inductive Reachable : Heap T → forward_list → Prop where
  | default (h : Heap T) : Reachable h {}
  | initializer_list (h : Heap T) (xs : List T) :
      Reachable (forward_list.from_initializer_list h xs).1
        (forward_list.from_initializer_list h xs).2
  | copy {h : Heap T} {other : forward_list} {h1 : Heap T} {c : forward_list} (fuel : Nat) :
      Reachable h other → forward_list.copy fuel h other = .ok (h1, c) → Reachable h1 c
  | step {h : Heap T} {l : forward_list} {h1 : Heap T} {l1 : forward_list} :
      Reachable h l → Step (h, l) (h1, l1) → Reachable h1 l1
  | frame {h : Heap T} {l : forward_list} {h1 : Heap T} :
      Reachable h l → Frame l h h1 → Reachable h1 l

/-- A program with two lists `a` and `b` in one store: one step is one call of
a mutating member on either of them. -/
inductive Step2 : Heap T × forward_list × forward_list →
    Heap T × forward_list × forward_list → Prop where
  | left {h h1 : Heap T} {a a1 : forward_list} (b : forward_list) :
      Step (h, a) (h1, a1) → Step2 (h, a, b) (h1, a1, b)
  | right {h h1 : Heap T} {b b1 : forward_list} (a : forward_list) :
      Step (h, b) (h1, b1) → Step2 (h, a, b) (h1, a, b1)

/-! ## The chain of a list -/

/-- Predicate `Seg h p cs q`: following `next` from pointer `p` visits exactly
the cells `cs` (address and stored value, in order) and then arrives at `q`. -/
def Seg (h : Heap T) : node_pointer → List (Nat × T) → node_pointer → Prop
  | p, [], q => p = q
  | p, c :: cs, q => p = some c.1 ∧ ∃ nx, h[c.1]? = some ⟨nx, c.2⟩ ∧ Seg h nx cs q

/-- The representation invariant that the code maintains: the chain from
`m_head` is `cs` and ends at null, `m_size` counts it, and `m_tail` is null or
refers to a node whose `next` is null. -/
structure Valid (h : Heap T) (l : forward_list) (cs : List (Nat × T)) : Prop where
  chain : Seg h l.m_head cs none
  size : l.m_size = cs.length
  tail : ∀ t, l.m_tail = some t → ∃ n, h[t]? = some n ∧ n.next = none

/-- Two lists `a` and `b` in one store, with chains `as` and `bs`, that share no
node: both are valid, the chains are disjoint, and the node `m_tail` of either
refers to is not in the chain of the other. -/
structure Sep (h : Heap T) (a b : forward_list) (as bs : List (Nat × T)) : Prop where
  va : Valid h a as
  vb : Valid h b bs
  disj : ∀ x ∈ as, ∀ y ∈ bs, x.1 ≠ y.1
  ta : ∀ t, a.m_tail = some t → ∀ y ∈ bs, y.1 ≠ t
  tb : ∀ t, b.m_tail = some t → ∀ x ∈ as, x.1 ≠ t

/-- What one operation on a list with chain `cs` does to the store: it only
grows, every cell outside the chain keeps its content, and the cells of the new
chain `cs1` are cells of the old chain or freshly allocated. -/
structure Effect (h h1 : Heap T) (cs cs1 : List (Nat × T)) : Prop where
  grow : h.length ≤ h1.length
  keep : ∀ a n, h[a]? = some n → (∀ c ∈ cs, c.1 ≠ a) → h1[a]? = some n
  fresh : ∀ c ∈ cs1, (∃ d ∈ cs, d.1 = c.1) ∨ h.length ≤ c.1

/-! ## Lemmas on segments -/

theorem getElem?_lt {h : Heap T} {a : Nat} {n : forward_list_node T}
    (hn : h[a]? = some n) : a < h.length := by
  rcases Nat.lt_or_ge a h.length with hl | hl
  · exact hl
  · rw [List.getElem?_eq_none hl] at hn; cases hn

theorem getElem?_append_some {h : Heap T} {a : Nat} {n : forward_list_node T}
    (e : Heap T) (hn : h[a]? = some n) : (h ++ e)[a]? = some n := by
  rw [List.getElem?_append_left (getElem?_lt hn)]; exact hn

theorem seg_lt {h : Heap T} {p q : node_pointer} {cs : List (Nat × T)}
    (hs : Seg h p cs q) : ∀ c ∈ cs, c.1 < h.length := by
  induction cs generalizing p with
  | nil => intro c hc; cases hc
  | cons c cs ih =>
    obtain ⟨_, nx, hn, hrest⟩ := hs
    intro d hd
    rcases List.mem_cons.1 hd with rfl | hd
    · exact getElem?_lt hn
    · exact ih hrest d hd

theorem seg_append {h : Heap T} {p m q : node_pointer} {cs ds : List (Nat × T)}
    (h1 : Seg h p cs m) (h2 : Seg h m ds q) : Seg h p (cs ++ ds) q := by
  induction cs generalizing p with
  | nil => cases h1; exact h2
  | cons c cs ih =>
    obtain ⟨hp, nx, hn, hrest⟩ := h1
    exact ⟨hp, nx, hn, ih hrest⟩

theorem seg_split {h : Heap T} {p q : node_pointer} {cs ds : List (Nat × T)}
    (hs : Seg h p (cs ++ ds) q) : ∃ m, Seg h p cs m ∧ Seg h m ds q := by
  induction cs generalizing p with
  | nil => exact ⟨p, rfl, hs⟩
  | cons c cs ih =>
    obtain ⟨hp, nx, hn, hrest⟩ := hs
    obtain ⟨m, hm1, hm2⟩ := ih hrest
    exact ⟨m, ⟨hp, nx, hn, hm1⟩, hm2⟩

theorem seg_heap_append {h : Heap T} {p q : node_pointer} {cs : List (Nat × T)}
    (e : Heap T) (hs : Seg h p cs q) : Seg (h ++ e) p cs q := by
  induction cs generalizing p with
  | nil => exact hs
  | cons c cs ih =>
    obtain ⟨hp, nx, hn, hrest⟩ := hs
    exact ⟨hp, nx, getElem?_append_some e hn, ih hrest⟩

theorem seg_set_other {h : Heap T} {p q : node_pointer} {cs : List (Nat × T)}
    (a : Nat) (n : forward_list_node T)
    (hs : Seg h p cs q) (ha : ∀ c ∈ cs, c.1 ≠ a) : Seg (h.set a n) p cs q := by
  induction cs generalizing p with
  | nil => exact hs
  | cons c cs ih =>
    obtain ⟨hp, nx, hn, hrest⟩ := hs
    refine ⟨hp, nx, ?_, ih hrest (fun d hd => ha d (List.mem_cons_of_mem _ hd))⟩
    rw [List.getElem?_set_ne (Ne.symm (ha c (List.mem_cons_self _ _)))]
    exact hn

theorem chain_det {h : Heap T} {p : node_pointer} {cs ds : List (Nat × T)}
    (h1 : Seg h p cs none) (h2 : Seg h p ds none) : cs = ds := by
  induction cs generalizing p ds with
  | nil =>
    cases ds with
    | nil => rfl
    | cons d ds =>
      obtain ⟨hp, _⟩ := h2
      have h0 : p = none := h1
      rw [h0] at hp; cases hp
  | cons c cs ih =>
    obtain ⟨hp, nx, hn, hrest⟩ := h1
    cases ds with
    | nil =>
      have h0 : p = none := h2
      rw [h0] at hp; cases hp
    | cons d ds =>
      obtain ⟨hp2, nx2, hn2, hrest2⟩ := h2
      rw [hp] at hp2
      have hcd : c.1 = d.1 := Option.some.inj hp2
      rw [← hcd, hn] at hn2
      have hnode := Option.some.inj hn2
      have hnx : nx = nx2 := congrArg forward_list_node.next hnode
      have hv : c.2 = d.2 := congrArg forward_list_node.value hnode
      subst hnx
      rw [ih hrest hrest2]
      congr 1
      exact Prod.ext hcd hv

theorem chain_nodup {h : Heap T} {p : node_pointer} {cs : List (Nat × T)}
    (hs : Seg h p cs none) : (cs.map Prod.fst).Nodup := by
  induction cs generalizing p with
  | nil => exact List.nodup_nil
  | cons c cs ih =>
    obtain ⟨hp, nx, hn, hrest⟩ := hs
    rw [List.map_cons, List.nodup_cons]
    refine ⟨?_, ih hrest⟩
    intro hmem
    obtain ⟨d, hd, hdc⟩ := List.mem_map.1 hmem
    obtain ⟨l1, l2, hsplit⟩ := List.append_of_mem hd
    rw [hsplit] at hrest
    obtain ⟨m, _, hm2⟩ := seg_split hrest
    obtain ⟨_, nx2, hn2, hrest2⟩ := hm2
    rw [hdc, hn] at hn2
    have hnx : nx = nx2 := congrArg forward_list_node.next (Option.some.inj hn2)
    subst hnx
    have := chain_det hrest hrest2
    have hlen := congrArg List.length this
    simp at hlen
    omega

/-! ## Observations of a valid list -/

theorem load_ok {h : Heap T} {a : Nat} {n : forward_list_node T} (hn : h[a]? = some n) :
    (load h (some a) : Except (Exn σ) (forward_list_node T)) = .ok n := by
  simp [load, hn]

theorem advance_seg {h : Heap T} {p q : node_pointer} {cs : List (Nat × T)}
    (hs : Seg h p cs q) : advance h cs.length ⟨p⟩ = .ok ⟨q⟩ := by
  induction cs generalizing p with
  | nil =>
    have h0 : p = q := hs
    simp [advance, h0, pure, Except.pure]
  | cons c cs ih =>
    obtain ⟨hp, nx, hn, hrest⟩ := hs
    subst hp
    simp only [List.length_cons, advance, forward_list_iterator.incr, load_ok hn, bind,
      Except.bind, pure, Except.pure]
    exact ih hrest

theorem chain_index {h : Heap T} {p : node_pointer} {cs : List (Nat × T)} {i : Nat}
    (hs : Seg h p cs none) (hi : i < cs.length) :
    ∃ cs1 c cs2, cs = cs1 ++ c :: cs2 ∧ cs1.length = i ∧
      advance h i ⟨p⟩ = .ok ⟨some c.1⟩ := by
  have hsplit : cs = cs.take i ++ cs[i] :: cs.drop (i + 1) := by
    rw [← List.drop_eq_getElem_cons hi, List.take_append_drop]
  have hlen : (cs.take i).length = i := by
    rw [List.length_take]; omega
  refine ⟨cs.take i, cs[i], cs.drop (i + 1), hsplit, hlen, ?_⟩
  rw [hsplit] at hs
  obtain ⟨m, hm1, hm2⟩ := seg_split hs
  obtain ⟨hm, _⟩ := hm2
  have := advance_seg hm1
  rw [hlen, hm] at this
  exact this

theorem traverse_chain {h : Heap T} {p : node_pointer} {cs : List (Nat × T)}
    (hs : Seg h p cs none) (k : Nat) :
    traverse h (cs.length + k) ⟨p⟩ ⟨none⟩ = .ok (cs.map Prod.snd) := by
  induction cs generalizing p with
  | nil =>
    have h0 : p = none := hs
    subst h0
    unfold traverse
    simp [forward_list_iterator.ne, pure, Except.pure]
  | cons c cs ih =>
    obtain ⟨hp, nx, hn, hrest⟩ := hs
    subst hp
    have hfuel : (c :: cs).length + k = (cs.length + k) + 1 := by
      simp only [List.length_cons]; omega
    rw [hfuel]
    unfold traverse
    simp only [forward_list_iterator.ne, forward_list_iterator.deref,
      forward_list_iterator.incr, load_ok hn, bind, Except.bind, pure, Except.pure,
      ih hrest, List.map_cons]
    simp

theorem end_valid {h : Heap T} {l : forward_list} {cs : List (Nat × T)}
    (hv : Valid h l cs) : (forward_list.end_ h l : Except (Exn σ) _) = .ok ⟨none⟩ := by
  unfold forward_list.end_
  cases ht : l.m_tail with
  | none => rfl
  | some t =>
    obtain ⟨n, hn, hnx⟩ := hv.tail t ht
    simp [load_ok hn, hnx, bind, Except.bind, pure, Except.pure]

theorem values_valid {h : Heap T} {l : forward_list} {cs : List (Nat × T)}
    (hv : Valid h l cs) (k : Nat) :
    values (l.m_size + k) h l = .ok (cs.map Prod.snd) := by
  unfold values
  rw [end_valid hv, hv.size]
  simp only [bind, Except.bind, forward_list.begin]
  exact traverse_chain hv.chain k

/-! ## The members preserve the invariant -/

theorem valid_head_nil {h : Heap T} {l : forward_list} (hv : Valid h l []) :
    l.m_head = none := hv.chain

theorem valid_empty_iff {h : Heap T} {l : forward_list} {cs : List (Nat × T)}
    (hv : Valid h l cs) : l.m_head = none ↔ l.m_size = 0 := by
  cases cs with
  | nil => simp [hv.size, valid_head_nil hv]
  | cons c cs =>
    obtain ⟨hp, _⟩ := hv.chain
    simp [hv.size, hp]

theorem valid_default (h : Heap T) : Valid h {} [] :=
  ⟨rfl, rfl, fun _ ht => by cases ht⟩

theorem effect_refl (h : Heap T) (cs : List (Nat × T)) : Effect h h cs cs :=
  ⟨Nat.le_refl _, fun _ _ hn _ => hn, fun c hc => Or.inl ⟨c, hc, rfl⟩⟩

theorem push_front_valid {h : Heap T} {l : forward_list} {cs : List (Nat × T)}
    (hv : Valid h l cs) (v : T) :
    Valid (forward_list.push_front h l v).1 (forward_list.push_front h l v).2
      ((h.length, v) :: cs) := by
  refine ⟨?_, ?_, ?_⟩
  · refine ⟨rfl, l.m_head, ?_, seg_heap_append _ hv.chain⟩
    simp [forward_list.push_front, make_shared]
  · simp [forward_list.push_front, make_shared, hv.size]
  · intro t ht
    obtain ⟨n, hn, hnx⟩ := hv.tail t ht
    exact ⟨n, getElem?_append_some _ hn, hnx⟩

theorem push_front_effect (h : Heap T) (l : forward_list) (cs : List (Nat × T)) (v : T) :
    Effect h (forward_list.push_front h l v).1 cs ((h.length, v) :: cs) := by
  refine ⟨?_, ?_, ?_⟩
  · simp [forward_list.push_front, make_shared]
  · intro a n hn _
    exact getElem?_append_some _ hn
  · intro c hc
    rcases List.mem_cons.1 hc with rfl | hc
    · exact Or.inr (Nat.le_refl _)
    · exact Or.inl ⟨c, hc, rfl⟩

theorem pop_front_nil {h : Heap T} {l : forward_list} (hv : Valid h l []) :
    forward_list.pop_front h l = .error (.list_was_empty (h, l)) := by
  simp [forward_list.pop_front, valid_head_nil hv, throw, throwThe, MonadExceptOf.throw,
    bind, Except.bind]

theorem pop_front_cons {h : Heap T} {l : forward_list} {c : Nat × T} {cs : List (Nat × T)}
    (hv : Valid h l (c :: cs)) :
    ∃ nx, h[c.1]? = some ⟨nx, c.2⟩ ∧
      forward_list.pop_front h l = .ok (h, { l with m_head := nx, m_size := cs.length }) ∧
      Valid h { l with m_head := nx, m_size := cs.length } cs := by
  obtain ⟨hp, nx, hn, hrest⟩ := hv.chain
  refine ⟨nx, hn, ?_, ⟨hrest, rfl, hv.tail⟩⟩
  have hsz : size_dec l.m_size = cs.length := by
    simp [size_dec, hv.size]
  simp [forward_list.pop_front, hp, load_ok hn, hsz, bind, Except.bind, pure, Except.pure]

theorem effect_tail {h : Heap T} {cs : List (Nat × T)} (c : Nat × T) :
    Effect h h (c :: cs) cs :=
  ⟨Nat.le_refl _, fun _ _ hn _ => hn, fun d hd => Or.inl ⟨d, List.mem_cons_of_mem _ hd, rfl⟩⟩


theorem seg_none_nil {h : Heap T} {cs : List (Nat × T)} {q : node_pointer}
    (hs : Seg h none cs q) : cs = [] := by
  cases cs with
  | nil => rfl
  | cons c cs => obtain ⟨hp, _⟩ := hs; cases hp

theorem nodup_mid {cs1 cs2 : List (Nat × T)} {c : Nat × T}
    (hnd : ((cs1 ++ c :: cs2).map Prod.fst).Nodup) :
    (∀ d ∈ cs1, d.1 ≠ c.1) ∧ (∀ d ∈ cs2, d.1 ≠ c.1) := by
  rw [List.map_append, List.map_cons] at hnd
  have h1 := List.nodup_append.1 hnd
  obtain ⟨_, h2, h3⟩ := h1
  rw [List.nodup_cons] at h2
  constructor
  · intro d hd heq
    exact h3 (List.mem_map_of_mem Prod.fst hd) (by rw [heq]; exact List.mem_cons_self _ _)
  · intro d hd heq
    exact h2.1 (by rw [← heq]; exact List.mem_map_of_mem Prod.fst hd)

theorem emplace_after_valid {h : Heap T} {l : forward_list} {cs1 cs2 : List (Nat × T)}
    {c : Nat × T} (hv : Valid h l (cs1 ++ c :: cs2)) (v : T) :
    ∃ h1 l1, forward_list.emplace_after h l ⟨some c.1⟩ v = .ok ((h1, l1), ⟨some h.length⟩) ∧
      Valid h1 l1 (cs1 ++ c :: (h.length, v) :: cs2) ∧
      l1.m_size = l.m_size + 1 ∧ l1.m_head = l.m_head ∧
      h1.length = h.length + 1 ∧
      (∀ a n, h[a]? = some n → a ≠ c.1 → h1[a]? = some n) ∧
      (l.m_tail = some c.1 → cs2 = [] ∧ l1.m_tail = some h.length) ∧
      (l.m_tail ≠ some c.1 → l1.m_tail = l.m_tail) := by
  obtain ⟨m, hseg1, hseg2⟩ := seg_split hv.chain
  obtain ⟨hm, nx, hn, hrest⟩ := hseg2
  subst hm
  obtain ⟨hnd1, hnd2⟩ := nodup_mid (chain_nodup hv.chain)
  have hlt : c.1 < h.length := getElem?_lt hn
  have hne : c.1 ≠ h.length := Nat.ne_of_lt hlt
  have hA : (h ++ [(⟨none, v⟩ : forward_list_node T)])[c.1]? = some ⟨nx, c.2⟩ :=
    getElem?_append_some _ hn
  have hlt1 : c.1 < (h ++ [(⟨none, v⟩ : forward_list_node T)]).length := by
    simp; omega
  by_cases ht : l.m_tail = some c.1
  · obtain ⟨n, hn2, hnx⟩ := hv.tail _ ht
    rw [hn] at hn2
    have hnx0 : nx = none := by
      have := congrArg forward_list_node.next (Option.some.inj hn2)
      rw [← hnx]; exact this
    subst hnx0
    have hcs2 : cs2 = [] := seg_none_nil hrest
    subst hcs2
    refine ⟨(h ++ [(⟨none, v⟩ : forward_list_node T)]).set c.1 ⟨some h.length, c.2⟩,
      { l with m_tail := some h.length, m_size := l.m_size + 1 }, ?_, ?_, rfl, rfl, ?_, ?_, ?_, ?_⟩
    · simp [forward_list.emplace_after, make_shared, ht, store_next, load, hA,
        List.getElem?_set_self hlt1, bind, Except.bind, pure, Except.pure]
    · refine ⟨?_, ?_, ?_⟩
      · refine seg_append (seg_set_other _ _ (seg_heap_append _ hseg1) hnd1) ?_
        refine ⟨rfl, some h.length, List.getElem?_set_self hlt1, rfl, none, ?_, rfl⟩
        show ((h ++ [_]).set c.1 _)[h.length]? = _
        rw [List.getElem?_set_ne hne, List.getElem?_concat_length]
      · simp [hv.size]
      · intro t ht2
        have : t = h.length := (Option.some.inj ht2).symm
        subst this
        refine ⟨⟨none, v⟩, ?_, rfl⟩
        rw [List.getElem?_set_ne hne, List.getElem?_concat_length]
    · simp
    · intro a n hna hac
      rw [List.getElem?_set_ne (Ne.symm hac)]
      exact getElem?_append_some _ hna
    · intro _; exact ⟨rfl, rfl⟩
    · intro hc; exact absurd ht hc
  · have hB : ((h ++ [(⟨none, v⟩ : forward_list_node T)]).set c.1 ⟨some h.length, c.2⟩)[h.length]?
        = some ⟨none, v⟩ := by
      rw [List.getElem?_set_ne hne, List.getElem?_concat_length]
    have hlt2 : h.length <
        ((h ++ [(⟨none, v⟩ : forward_list_node T)]).set c.1 ⟨some h.length, c.2⟩).length := by
      simp
    have hpos : ¬ (some c.1 = l.m_tail) := fun e => ht e.symm
    refine ⟨((h ++ [(⟨none, v⟩ : forward_list_node T)]).set c.1 ⟨some h.length, c.2⟩).set h.length ⟨nx, v⟩,
      { l with m_size := l.m_size + 1 }, ?_, ?_, rfl, rfl, ?_, ?_, ?_, ?_⟩
    · simp [forward_list.emplace_after, make_shared, hpos, store_next, load, hA, hB,
        bind, Except.bind, pure, Except.pure]
    · refine ⟨?_, ?_, ?_⟩
      · refine seg_append (seg_set_other _ _ (seg_set_other _ _ (seg_heap_append _ hseg1) hnd1)
          (fun d hd => Nat.ne_of_lt (seg_lt hseg1 d hd))) ?_
        refine ⟨rfl, some h.length, ?_, rfl, nx, List.getElem?_set_self hlt2, ?_⟩
        · show (((h ++ [_]).set c.1 _).set h.length _)[c.1]? = _
          rw [List.getElem?_set_ne (Ne.symm hne), List.getElem?_set_self hlt1]
        · exact seg_set_other _ _ (seg_set_other _ _ (seg_heap_append _ hrest) hnd2)
            (fun d hd => Nat.ne_of_lt (seg_lt hrest d hd))
      · simp [hv.size]; omega
      · intro t ht2
        obtain ⟨n, hn2, hnx⟩ := hv.tail t ht2
        have htc : t ≠ c.1 := fun e => ht (by rw [ht2, e])
        refine ⟨n, ?_, hnx⟩
        show (((h ++ [_]).set c.1 _).set h.length _)[t]? = _
        rw [List.getElem?_set_ne (Ne.symm (Nat.ne_of_lt (getElem?_lt hn2))),
          List.getElem?_set_ne (Ne.symm htc)]
        exact getElem?_append_some _ hn2
    · simp
    · intro a n hna hac
      rw [List.getElem?_set_ne (Ne.symm (Nat.ne_of_lt (getElem?_lt hna))),
        List.getElem?_set_ne (Ne.symm hac)]
      exact getElem?_append_some _ hna
    · intro hc; exact absurd hc ht
    · intro _; rfl


theorem erase_after_valid {h : Heap T} {l : forward_list} {cs1 cs2 : List (Nat × T)}
    {c d : Nat × T} (hv : Valid h l (cs1 ++ c :: d :: cs2)) :
    ∃ nx h1 l1, forward_list.erase_after h l ⟨some c.1⟩ = .ok ((h1, l1), ⟨nx⟩) ∧
      Valid h1 l1 (cs1 ++ c :: cs2) ∧ Seg h1 nx cs2 none ∧
      l1 = { l with m_size := l.m_size - 1 } ∧
      h1.length = h.length ∧
      (∀ a n, h[a]? = some n → a ≠ c.1 → h1[a]? = some n) := by
  obtain ⟨m, hseg1, hseg2⟩ := seg_split hv.chain
  obtain ⟨hm, nxc, hn, hrest⟩ := hseg2
  subst hm
  obtain ⟨hd, nx, hnd, hrest2⟩ := hrest
  subst hd
  obtain ⟨hnd1, hnd2⟩ := nodup_mid (chain_nodup hv.chain)
  have hlt : c.1 < h.length := getElem?_lt hn
  have hhead : l.m_head ≠ none := by
    intro h0
    have := (valid_empty_iff hv).1 h0
    rw [hv.size] at this
    simp at this
  have hsz : size_dec l.m_size = l.m_size - 1 := by
    simp [size_dec, hv.size]
  have hS : Seg (h.set c.1 ⟨nx, c.2⟩) nx cs2 none :=
    seg_set_other _ _ hrest2 (fun e he => hnd2 e (List.mem_cons_of_mem _ he))
  refine ⟨nx, h.set c.1 ⟨nx, c.2⟩, { l with m_size := l.m_size - 1 }, ?_, ?_, hS, rfl, ?_, ?_⟩
  · cases hnx : nx with
    | none =>
      subst hnx
      simp [forward_list.erase_after, hhead, load, hn, hnd, store_next,
        forward_list_iterator.incr, List.getElem?_set_self hlt, hsz, bind, Except.bind,
        pure, Except.pure]
    | some b =>
      subst hnx
      simp [forward_list.erase_after, hhead, load, hn, hnd, store_next,
        forward_list_iterator.incr, List.getElem?_set_self hlt, hsz, bind, Except.bind,
        pure, Except.pure]
  · refine ⟨?_, ?_, ?_⟩
    · exact seg_append (seg_set_other _ _ hseg1 hnd1)
        ⟨rfl, nx, List.getElem?_set_self hlt, hS⟩
    · simp [hv.size]
    · intro t ht
      obtain ⟨n, hn2, hnx⟩ := hv.tail t ht
      have htc : t ≠ c.1 := by
        intro e
        rw [e, hn] at hn2
        have := congrArg forward_list_node.next (Option.some.inj hn2)
        rw [hnx] at this
        cases this
      exact ⟨n, by rw [List.getElem?_set_ne (Ne.symm htc)]; exact hn2, hnx⟩
  · simp
  · intro a n hna hac
    rw [List.getElem?_set_ne (Ne.symm hac)]
    exact hna

theorem clear_valid {h : Heap T} {l : forward_list} {cs : List (Nat × T)}
    (hv : Valid h l cs) (k : Nat) :
    forward_list.clear (cs.length + k) h l = .ok (h, { l with m_head := none, m_size := 0 }) ∧
      Valid h { l with m_head := none, m_size := 0 } [] := by
  induction cs generalizing l with
  | nil =>
    have h0 := valid_head_nil hv
    have hsz : l.m_size = 0 := hv.size
    have hl : ({ l with m_head := none, m_size := 0 } : forward_list) = l := by
      cases l; simp at h0 hsz; simp [h0, hsz]
    rw [hl]
    refine ⟨?_, hv⟩
    unfold forward_list.clear
    simp [hsz, pure, Except.pure]
  | cons c cs ih =>
    obtain ⟨nx, _, hpop, hv1⟩ := pop_front_cons hv
    have hsz : l.m_size ≠ 0 := by rw [hv.size]; simp
    have hfuel : (c :: cs).length + k = (cs.length + k) + 1 := by
      simp only [List.length_cons]; omega
    have := ih hv1 
    rw [hfuel]
    unfold forward_list.clear
    simp only [hsz, if_false, hpop, bind, Except.bind]
    exact this

theorem assign_valid {h : Heap T} {l : forward_list} {cs1 cs2 : List (Nat × T)}
    {c : Nat × T} (hv : Valid h l (cs1 ++ c :: cs2)) (v : T) :
    ∃ nx, (store_value h (some c.1) v : Except (Exn Unit) (Heap T)) = .ok (h.set c.1 ⟨nx, v⟩) ∧
      Valid (h.set c.1 ⟨nx, v⟩) l (cs1 ++ (c.1, v) :: cs2) := by
  obtain ⟨m, hseg1, hseg2⟩ := seg_split hv.chain
  obtain ⟨hm, nx, hn, hrest⟩ := hseg2
  subst hm
  obtain ⟨hnd1, hnd2⟩ := nodup_mid (chain_nodup hv.chain)
  have hlt : c.1 < h.length := getElem?_lt hn
  refine ⟨nx, ?_, ?_, ?_, ?_⟩
  · simp [store_value, hn]
  · exact seg_append (seg_set_other _ _ hseg1 hnd1)
      ⟨rfl, nx, List.getElem?_set_self hlt, seg_set_other _ _ hrest hnd2⟩
  · simp [hv.size]
  · intro t ht
    obtain ⟨n, hn2, hnx⟩ := hv.tail t ht
    by_cases htc : t = c.1
    · subst htc
      rw [hn] at hn2
      have := congrArg forward_list_node.next (Option.some.inj hn2)
      exact ⟨⟨nx, v⟩, List.getElem?_set_self hlt, by rw [← hnx]; exact this⟩
    · exact ⟨n, by rw [List.getElem?_set_ne (Ne.symm htc)]; exact hn2, hnx⟩

theorem chain_index_mem {h : Heap T} {p : node_pointer} {cs : List (Nat × T)} {c : Nat × T}
    (hs : Seg h p cs none) (hc : c ∈ cs) :
    ∃ i, i < cs.length ∧ advance h i ⟨p⟩ = .ok ⟨some c.1⟩ := by
  obtain ⟨l1, l2, hsplit⟩ := List.append_of_mem hc
  subst hsplit
  obtain ⟨m, hm1, hm2⟩ := seg_split hs
  obtain ⟨hm, _⟩ := hm2
  subst hm
  exact ⟨l1.length, by simp, advance_seg hm1⟩

theorem frame_valid {h h1 : Heap T} {l : forward_list} {cs : List (Nat × T)}
    (hf : Frame l h h1) (hv : Valid h l cs) : Valid h1 l cs := by
  cases hf with
  | alloc n =>
    exact ⟨seg_heap_append _ hv.chain, hv.size, fun t ht => by
      obtain ⟨n, hn, hnx⟩ := hv.tail t ht
      exact ⟨n, getElem?_append_some _ hn, hnx⟩⟩
  | write a n hout htl =>
    have hnot : ∀ c ∈ cs, c.1 ≠ a := by
      intro c hc e
      obtain ⟨i, _, hi⟩ := chain_index_mem hv.chain hc
      rw [e] at hi
      exact hout i hi
    refine ⟨seg_set_other _ _ hv.chain hnot, hv.size, ?_⟩
    intro t ht
    obtain ⟨m, hm, hnx⟩ := hv.tail t ht
    by_cases hta : t = a
    · subst hta
      exact ⟨n, List.getElem?_set_self (getElem?_lt hm), htl ht⟩
    · exact ⟨m, by rw [List.getElem?_set_ne (Ne.symm hta)]; exact hm, hnx⟩


theorem seg_ext {h H : Heap T} {p q : node_pointer} {cs : List (Nat × T)}
    (hs : Seg h p cs q) (hext : ∀ (a : Nat) n, h[a]? = some n → H[a]? = some n) : Seg H p cs q := by
  induction cs generalizing p with
  | nil => exact hs
  | cons c cs ih =>
    obtain ⟨hp, nx, hn, hrest⟩ := hs
    exact ⟨hp, nx, hext _ _ hn, ih hrest⟩

theorem copy_loop_mono (fuel : Nat) :
    ∀ (H : Heap T) (cur oth : node_pointer) (r : Heap T × node_pointer),
      forward_list.copy_loop fuel H cur oth = .ok r →
      ∀ k, forward_list.copy_loop (fuel + k) H cur oth = .ok r := by
  induction fuel with
  | zero =>
    intro H cur oth r hr k
    unfold forward_list.copy_loop at hr ⊢
    cases hl : (load H oth : Except (Exn (Heap T)) _) with
    | error e => rw [hl] at hr; cases hr
    | ok o =>
      rw [hl] at hr
      simp only [bind, Except.bind] at hr ⊢
      by_cases ho : o.next = none
      · simp only [ho, if_true] at hr ⊢
        exact hr
      · simp only [ho, if_false] at hr
        cases hr
  | succ fuel ih =>
    intro H cur oth r hr k
    have hk : fuel + 1 + k = (fuel + k) + 1 := by omega
    rw [hk]
    unfold forward_list.copy_loop at hr ⊢
    cases hl : (load H oth : Except (Exn (Heap T)) _) with
    | error e => rw [hl] at hr; cases hr
    | ok o =>
      rw [hl] at hr
      simp only [bind, Except.bind] at hr ⊢
      by_cases ho : o.next = none
      · simp only [ho, if_true] at hr ⊢
        exact hr
      · simp only [ho, if_false] at hr ⊢
        cases hl1 : (load H o.next : Except (Exn (Heap T)) _) with
        | error e => rw [hl1] at hr; cases hr
        | ok o1 =>
          rw [hl1] at hr
          simp only at hr ⊢
          cases hs : (store_next (make_shared H { value := o1.value }).1 cur
              (some (make_shared H { value := o1.value }).2) : Except (Exn (Heap T)) _) with
          | error e => rw [hs] at hr; cases hr
          | ok h2 =>
            rw [hs] at hr
            simp only at hr ⊢
            cases hc : (load h2 cur : Except (Exn (Heap T)) _) with
            | error e => rw [hc] at hr; cases hr
            | ok cn =>
              rw [hc] at hr
              simp only at hr ⊢
              cases ho2 : (load h2 oth : Except (Exn (Heap T)) _) with
              | error e => rw [ho2] at hr; cases hr
              | ok o2 =>
                rw [ho2] at hr
                simp only at hr ⊢
                exact ih _ _ _ _ hr k


theorem copy_loop_spec {h : Heap T} (rest : List (Nat × T)) :
    ∀ (c : Nat × T) (H : Heap T) (cur : Nat) (first : node_pointer) (done : List (Nat × T)),
      Seg h (some c.1) (c :: rest) none →
      h.length ≤ H.length → (∀ (a : Nat) n, h[a]? = some n → H[a]? = some n) →
      H[cur]? = some ⟨none, c.2⟩ → h.length ≤ cur →
      Seg H first done (some cur) → (∀ d ∈ done, d.1 ≠ cur ∧ h.length ≤ d.1) →
      ∃ H1 last cs1,
        (∀ k, forward_list.copy_loop (rest.length + k) H (some cur) (some c.1)
          = .ok (H1, some last)) ∧
        h.length ≤ H1.length ∧ (∀ (a : Nat) n, h[a]? = some n → H1[a]? = some n) ∧
        Seg H1 first (done ++ cs1) none ∧
        cs1.map Prod.snd = (c :: rest).map Prod.snd ∧
        (∀ d ∈ cs1, h.length ≤ d.1) ∧
        (∃ n, H1[last]? = some n ∧ n.next = none) ∧ h.length ≤ last := by
  induction rest with
  | nil =>
    intro c H cur first done hsrc hlen hext hcur hge hdone hdlt
    obtain ⟨_, nx, hn, hrest⟩ := hsrc
    have hnx : nx = none := hrest
    subst hnx
    refine ⟨H, cur, [(cur, c.2)], ?_, hlen, hext, ?_, rfl, ?_, ⟨_, hcur, rfl⟩, hge⟩
    · intro k
      unfold forward_list.copy_loop
      simp [load, hext _ _ hn, bind, Except.bind, pure, Except.pure]
    · exact seg_append hdone ⟨rfl, none, hcur, rfl⟩
    · intro d hd
      rcases List.mem_singleton.1 hd with rfl
      exact hge
  | cons d rest ih =>
    intro c H cur first done hsrc hlen hext hcur hge hdone hdlt
    obtain ⟨_, nx, hn, hrest⟩ := hsrc
    have hrest0 := hrest
    obtain ⟨hnx, nx2, hnd, hrest2⟩ := hrest
    subst hnx
    have hcurlt : cur < H.length := getElem?_lt hcur
    have hcurne : cur ≠ H.length := Nat.ne_of_lt hcurlt
    have hclt : c.1 < h.length := getElem?_lt hn
    have hccur : cur ≠ c.1 := by omega
    have hcurlt1 : cur < (H ++ [(⟨none, d.2⟩ : forward_list_node T)]).length := by
      simp; omega
    have hext2 : ∀ (a : Nat) n, h[a]? = some n →
        ((H ++ [(⟨none, d.2⟩ : forward_list_node T)]).set cur ⟨some H.length, c.2⟩)[a]? = some n := by
      intro a n hna
      have : cur ≠ a := by have := getElem?_lt hna; omega
      rw [List.getElem?_set_ne this]
      exact getElem?_append_some _ (hext _ _ hna)
    obtain ⟨H1, last, cs1, hrun, hlen1, hext1, hseg, hvals, hfresh, hlast, hlastge⟩ :=
      ih d ((H ++ [(⟨none, d.2⟩ : forward_list_node T)]).set cur ⟨some H.length, c.2⟩)
        H.length first (done ++ [(cur, c.2)]) hrest0
        (by simp; omega) hext2
        (by rw [List.getElem?_set_ne hcurne, List.getElem?_concat_length])
        hlen
        (seg_append
          (seg_set_other _ _ (seg_heap_append _ hdone) (fun e he => (hdlt e he).1))
          ⟨rfl, some H.length, List.getElem?_set_self hcurlt1, rfl⟩)
        (by
          intro e he
          rcases List.mem_append.1 he with he | he
          · exact ⟨Nat.ne_of_lt (seg_lt hdone e he), (hdlt e he).2⟩
          · rcases List.mem_singleton.1 he with rfl
            exact ⟨Nat.ne_of_lt hcurlt, hge⟩)
    refine ⟨H1, last, (cur, c.2) :: cs1, ?_, hlen1, hext1, ?_, ?_, ?_, hlast, hlastge⟩
    · intro k
      have hfuel : (d :: rest).length + k = (rest.length + k) + 1 := by
        simp only [List.length_cons]; omega
      rw [hfuel]
      unfold forward_list.copy_loop
      simp only [load, hext _ _ hn, hext _ _ hnd, make_shared, store_next,
        getElem?_append_some _ hcur, List.getElem?_set_self hcurlt1, hext2 _ _ hn,
        bind, Except.bind, pure, Except.pure]
      simp only [reduceCtorEq, if_false]
      exact hrun k
    · rw [List.append_assoc] at hseg
      exact hseg
    · simp only [List.map_cons] at hvals ⊢
      rw [hvals]
    · intro e he
      rcases List.mem_cons.1 he with rfl | he
      · exact hge
      · exact hfresh e he


theorem set_same {h : Heap T} {a : Nat} {n : forward_list_node T} (hn : h[a]? = some n) :
    h.set a n = h := by
  apply List.ext_getElem?
  intro i
  by_cases hi : a = i
  · subst hi
    rw [List.getElem?_set_self (getElem?_lt hn), hn]
  · rw [List.getElem?_set_ne hi]

theorem copy_valid {h : Heap T} {other : forward_list} {cs : List (Nat × T)}
    (hv : Valid h other cs) (hne : other.m_head ≠ none) :
    ∃ h1 c cs1, (∀ k, forward_list.copy (other.m_size + k) h other = .ok (h1, c)) ∧
      Valid h1 c cs1 ∧ cs1.map Prod.snd = cs.map Prod.snd ∧ c.m_size = other.m_size ∧
      h.length ≤ h1.length ∧ (∀ (a : Nat) n, h[a]? = some n → h1[a]? = some n) ∧
      (∀ d ∈ cs1, h.length ≤ d.1) ∧ (∃ t, c.m_tail = some t ∧ h.length ≤ t) ∧
      (∃ f, c.m_head = some f) := by
  cases cs with
  | nil => exact absurd (valid_head_nil hv) hne
  | cons c0 rest =>
    have hchain := hv.chain
    obtain ⟨hp, nx, hn, hrest⟩ := hchain
    have hsrc : Seg h (some c0.1) (c0 :: rest) none := ⟨rfl, nx, hn, hrest⟩
    obtain ⟨H1, last, cs1, hrun, hlen1, hext1, hseg, hvals, hfresh, ⟨n, hlast, hnnx⟩, hlastge⟩ :=
      copy_loop_spec rest c0 (h ++ [(⟨none, c0.2⟩ : forward_list_node T)]) h.length
        (some h.length) [] hsrc (by simp) (fun a n hna => getElem?_append_some _ hna)
        (List.getElem?_concat_length _ _) (Nat.le_refl _) rfl
        (fun d hd => by cases hd)
    have hnn : ({ n with next := none } : forward_list_node T) = n := by
      cases n; simp at hnnx; simp [hnnx]
    refine ⟨H1, { m_size := other.m_size, m_head := some h.length, m_tail := some last },
      cs1, ?_, ⟨hseg, ?_, ?_⟩, hvals, rfl, hlen1, hext1, hfresh, ⟨last, rfl, hlastge⟩,
      ⟨h.length, rfl⟩⟩
    · intro k
      have hfuel : other.m_size + k = rest.length + (1 + k) := by
        rw [hv.size]; simp only [List.length_cons]; omega
      rw [hfuel]
      simp only [forward_list.copy, hne, hp, load, hn, make_shared, hrun (1 + k),
        store_next, hlast, hnn, set_same hlast, bind, Except.bind, pure, Except.pure]
      simp
    · have := congrArg List.length hvals
      simp only [List.length_map] at this
      show other.m_size = cs1.length
      rw [hv.size, this]
    · intro t ht
      have : t = last := (Option.some.inj ht).symm
      subst this
      exact ⟨n, hlast, hnnx⟩

theorem copy_mono {fuel : Nat} {h : Heap T} {other : forward_list} {r : Heap T × forward_list}
    (hr : forward_list.copy fuel h other = .ok r) (k : Nat) :
    forward_list.copy (fuel + k) h other = .ok r := by
  unfold forward_list.copy at hr ⊢
  by_cases hh : other.m_head = none
  · simp [hh, throw, throwThe, MonadExceptOf.throw, bind, Except.bind] at hr
  · simp only [hh, if_false, bind, Except.bind, pure, Except.pure] at hr ⊢
    cases hl : (load h other.m_head : Except (Exn (Heap T)) _) with
    | error e => rw [hl] at hr; simp at hr
    | ok o =>
      rw [hl] at hr
      simp only at hr ⊢
      cases hc : forward_list.copy_loop fuel (make_shared h { value := o.value }).1
          (some (make_shared h { value := o.value }).2) other.m_head with
      | error e => rw [hc] at hr; simp at hr
      | ok r1 =>
        rw [copy_loop_mono fuel _ _ _ _ hc k]
        rw [hc] at hr
        exact hr


theorem clear_ok {h : Heap T} (fuel : Nat) :
    ∀ (l : forward_list) (cs : List (Nat × T)) (s : Heap T × forward_list),
      Valid h l cs → forward_list.clear fuel h l = .ok s →
      s = (h, { l with m_head := none, m_size := 0 }) := by
  intro l cs s hv hs
  by_cases hle : cs.length ≤ fuel
  · obtain ⟨k, hk⟩ := Nat.exists_eq_add_of_le hle
    have h0 := (clear_valid hv k).1
    rw [← hk, hs] at h0
    exact Except.ok.inj h0
  · exfalso
    induction fuel generalizing l cs with
    | zero =>
      unfold forward_list.clear at hs
      have hsz : l.m_size ≠ 0 := by rw [hv.size]; omega
      simp [hsz, throw, throwThe, MonadExceptOf.throw] at hs
    | succ fuel ih =>
      cases cs with
      | nil => simp at hle
      | cons c cs =>
        obtain ⟨nx, _, hpop, hv1⟩ := pop_front_cons hv
        have hsz : l.m_size ≠ 0 := by rw [hv.size]; simp
        unfold forward_list.clear at hs
        simp only [hsz, if_false, hpop, bind, Except.bind] at hs
        have hle2 : ¬ cs.length ≤ fuel := by
          simp only [List.length_cons] at hle; omega
        exact ih _ cs hv1 hs hle2

theorem step_effect {s0 s1 : Heap T × forward_list} {cs : List (Nat × T)}
    (hs : Step s0 s1) (hv : Valid s0.1 s0.2 cs) :
    ∃ cs1, Valid s1.1 s1.2 cs1 ∧ Effect s0.1 s1.1 cs cs1 ∧
      (∀ t, s1.2.m_tail = some t → s0.2.m_tail = some t ∨ s0.1.length ≤ t) := by
  cases hs with
  | push_front h l v =>
    exact ⟨_, push_front_valid hv v, push_front_effect h l cs v, fun t ht => Or.inl ht⟩
  | @pop_front h l s hpop =>
    cases cs with
    | nil => rw [pop_front_nil hv] at hpop; cases hpop
    | cons c cs =>
      obtain ⟨nx, _, hpop2, hv1⟩ := pop_front_cons hv
      rw [hpop2] at hpop
      cases hpop
      exact ⟨cs, hv1, effect_tail c, fun t ht => Or.inl ht⟩
  | @emplace_after h l s i position v it hi hadv hres =>
    have hi2 : i < cs.length := by rw [← hv.size]; exact hi
    obtain ⟨cs1, c, cs2, hsplit, _, hadv2⟩ := chain_index hv.chain hi2
    subst hsplit
    have hpos : position = ⟨some c.1⟩ := by
      have : advance h i l.begin = advance h i ⟨l.m_head⟩ := rfl
      rw [this, hadv2] at hadv
      exact (Except.ok.inj hadv).symm
    subst hpos
    obtain ⟨h1, l1, hrun, hv1, _, _, hlen, hkeep, ht1, ht2⟩ := emplace_after_valid hv v
    rw [hrun] at hres
    cases hres
    refine ⟨_, hv1, ⟨?_, ?_, ?_⟩, ?_⟩
    · show h.length ≤ h1.length
      rw [hlen]; exact Nat.le_succ _
    · intro a n hn hout
      exact hkeep a n hn (Ne.symm (hout c (by simp)))
    · intro d hd
      simp only [List.mem_append, List.mem_cons] at hd
      rcases hd with hd | rfl | rfl | hd
      · exact Or.inl ⟨d, by simp [hd], rfl⟩
      · exact Or.inl ⟨d, by simp, rfl⟩
      · exact Or.inr (Nat.le_refl _)
      · exact Or.inl ⟨d, by simp [hd], rfl⟩
    · intro t ht
      by_cases htl : l.m_tail = some c.1
      · right
        have := (ht1 htl).2
        show h.length ≤ t
        rw [this] at ht
        exact Nat.le_of_eq (Option.some.inj ht)
      · left
        rw [ht2 htl] at ht
        exact ht
  | @erase_after h l s i position it hi hadv hres =>
    have hi2 : i < cs.length := by rw [← hv.size]; exact Nat.lt_of_succ_lt hi
    obtain ⟨cs1, c, cs2, hsplit, hlen1, hadv2⟩ := chain_index hv.chain hi2
    subst hsplit
    have hpos : position = ⟨some c.1⟩ := by
      have : advance h i l.begin = advance h i ⟨l.m_head⟩ := rfl
      rw [this, hadv2] at hadv
      exact (Except.ok.inj hadv).symm
    subst hpos
    cases cs2 with
    | nil =>
      exfalso
      have := hv.size
      simp at this
      have hi3 : i + 1 < l.m_size := hi
      omega
    | cons d cs2 =>
      obtain ⟨nx, h1, l1, hrun, hv1, _, hl1, hlen, hkeep⟩ := erase_after_valid hv
      rw [hrun] at hres
      cases hres
      refine ⟨_, hv1, ⟨?_, ?_, ?_⟩, ?_⟩
      · show h.length ≤ h1.length
        rw [hlen]
      · intro a n hn hout
        exact hkeep a n hn (Ne.symm (hout c (by simp)))
      · intro e he
        simp only [List.mem_append, List.mem_cons] at he
        rcases he with he | rfl | he
        · exact Or.inl ⟨e, by simp [he], rfl⟩
        · exact Or.inl ⟨e, by simp, rfl⟩
        · exact Or.inl ⟨e, by simp [he], rfl⟩
      · intro t ht
        left
        rw [hl1] at ht
        exact ht
  | @clear h l s fuel hres =>
    have := clear_ok fuel l cs _ hv hres
    subst this
    exact ⟨[], (clear_valid hv 0).2, ⟨Nat.le_refl _, fun _ _ hn _ => hn,
      fun d hd => by cases hd⟩, fun t ht => Or.inl ht⟩
  | @assign h l h1 i position v hi hadv hres =>
    have hi2 : i < cs.length := by rw [← hv.size]; exact hi
    obtain ⟨cs1, c, cs2, hsplit, _, hadv2⟩ := chain_index hv.chain hi2
    subst hsplit
    have hpos : position = ⟨some c.1⟩ := by
      have : advance h i l.begin = advance h i ⟨l.m_head⟩ := rfl
      rw [this, hadv2] at hadv
      exact (Except.ok.inj hadv).symm
    subst hpos
    obtain ⟨nx, hrun, hv1⟩ := assign_valid hv v
    rw [hrun] at hres
    cases hres
    refine ⟨_, hv1, ⟨?_, ?_, ?_⟩, fun t ht => Or.inl ht⟩
    · show h.length ≤ (h.set c.1 _).length
      simp
    · intro a n hn hout
      show (h.set c.1 _)[a]? = _
      rw [List.getElem?_set_ne (hout c (by simp))]
      exact hn
    · intro d hd
      simp only [List.mem_append, List.mem_cons] at hd
      rcases hd with hd | rfl | hd
      · exact Or.inl ⟨d, by simp [hd], rfl⟩
      · exact Or.inl ⟨c, by simp, rfl⟩
      · exact Or.inl ⟨d, by simp [hd], rfl⟩

theorem push_all_valid (vs : List T) :
    ∀ (h : Heap T) (l : forward_list) (cs : List (Nat × T)), Valid h l cs →
      ∃ cs1, Valid (vs.foldl (fun s v => forward_list.push_front s.1 s.2 v) (h, l)).1
          (vs.foldl (fun s v => forward_list.push_front s.1 s.2 v) (h, l)).2 cs1 ∧
        cs1.map Prod.snd = vs.reverse ++ cs.map Prod.snd := by
  induction vs with
  | nil => intro h l cs hv; exact ⟨cs, hv, by simp⟩
  | cons v vs ih =>
    intro h l cs hv
    obtain ⟨cs1, hv1, hm⟩ := ih _ _ _ (push_front_valid hv v)
    refine ⟨cs1, hv1, ?_⟩
    rw [hm]
    simp

theorem reachable_valid {h : Heap T} {l : forward_list} (hr : Reachable h l) :
    ∃ cs, Valid h l cs := by
  induction hr with
  | default h => exact ⟨[], valid_default h⟩
  | initializer_list h xs =>
    obtain ⟨cs1, hv1, _⟩ := push_all_valid xs.reverse h {} [] (valid_default h)
    exact ⟨cs1, hv1⟩
  | @copy h other h1 c fuel _ hc ih =>
    obtain ⟨cs, hv⟩ := ih
    have hne : other.m_head ≠ none := by
      intro h0
      simp [forward_list.copy, h0, throw, throwThe, MonadExceptOf.throw, bind, Except.bind] at hc
    obtain ⟨h2, c2, cs1, hrun, hv1, _⟩ := copy_valid hv hne
    have h1 := copy_mono hc other.m_size
    rw [Nat.add_comm, hrun fuel] at h1
    cases h1
    exact ⟨cs1, hv1⟩
  | step _ hs ih =>
    obtain ⟨cs, hv⟩ := ih
    obtain ⟨cs1, hv1, _⟩ := step_effect hs hv
    exact ⟨cs1, hv1⟩
  | frame _ hf ih =>
    obtain ⟨cs, hv⟩ := ih
    exact ⟨cs, frame_valid hf hv⟩


theorem read_front_cons {h : Heap T} {l : forward_list} {c : Nat × T} {cs : List (Nat × T)}
    (hv : Valid h l (c :: cs)) : read_front h l = .ok c.2 := by
  obtain ⟨hp, nx, hn, _⟩ := hv.chain
  simp [read_front, forward_list.front, hp, load, hn, bind, Except.bind, pure, Except.pure]

theorem drain_valid {h : Heap T} {cs : List (Nat × T)} :
    ∀ (l : forward_list), Valid h l cs →
      ∃ l1, drain cs.length h l = .ok ((h, l1), cs.map Prod.snd) ∧ Valid h l1 [] := by
  induction cs with
  | nil =>
    intro l hv
    exact ⟨l, rfl, hv⟩
  | cons c cs ih =>
    intro l hv
    obtain ⟨nx, _, hpop, hv1⟩ := pop_front_cons hv
    obtain ⟨l1, hrun, hv2⟩ := ih _ hv1
    refine ⟨l1, ?_, hv2⟩
    simp only [List.length_cons, drain, read_front_cons hv, hpop, hrun, bind, Except.bind,
      pure, Except.pure, List.map_cons]

theorem valid_nil_observe {h : Heap T} {l : forward_list} (hv : Valid h l []) :
    l.size = 0 ∧ l.empty = true ∧ (∀ k, values k h l = .ok []) ∧
      ∃ e, (forward_list.end_ h l : Except (Exn Unit) _) = .ok e ∧
        forward_list_iterator.eq l.begin e = true := by
  have hsz : l.m_size = 0 := hv.size
  have hh := valid_head_nil hv
  refine ⟨hsz, by simp [forward_list.empty, hh], ?_, ⟨⟨none⟩, end_valid hv, ?_⟩⟩
  · intro k
    have := values_valid hv k
    rw [hsz, Nat.zero_add] at this
    exact this
  · simp [forward_list_iterator.eq, forward_list.begin, hh]

theorem push_all_observe (h : Heap T) (vs : List T) :
    (push_all h {} vs).2.size = vs.length ∧
      ∀ k, values (vs.length + k) (push_all h {} vs).1 (push_all h {} vs).2 = .ok vs.reverse := by
  obtain ⟨cs, hv, hm⟩ := push_all_valid vs h {} [] (valid_default h)
  simp only [List.map_nil, List.append_nil] at hm
  have hlen : cs.length = vs.length := by
    have := congrArg List.length hm
    simpa using this
  have hsz : (push_all h {} vs).2.m_size = vs.length := by
    rw [← hlen]; exact hv.size
  refine ⟨hsz, fun k => ?_⟩
  have := values_valid hv k
  rw [hm] at this
  rw [← hsz]
  exact this

/-! ## Copying and independence -/

theorem seg_keep {h H : Heap T} {p q : node_pointer} {cs : List (Nat × T)}
    (hs : Seg h p cs q)
    (hk : ∀ x ∈ cs, ∀ n, h[x.1]? = some n → H[x.1]? = some n) : Seg H p cs q := by
  induction cs generalizing p with
  | nil => exact hs
  | cons c cs ih =>
    obtain ⟨hp, nx, hn, hrest⟩ := hs
    exact ⟨hp, nx, hk c (List.mem_cons_self _ _) _ hn,
      ih hrest (fun x hx => hk x (List.mem_cons_of_mem _ hx))⟩

theorem valid_keep {h H : Heap T} {l : forward_list} {cs : List (Nat × T)}
    (hv : Valid h l cs)
    (hk : ∀ x ∈ cs, ∀ n, h[x.1]? = some n → H[x.1]? = some n)
    (ht : ∀ t, l.m_tail = some t → ∀ n, h[t]? = some n → H[t]? = some n) : Valid H l cs :=
  ⟨seg_keep hv.chain hk, hv.size, fun t htl => by
    obtain ⟨n, hn, hnx⟩ := hv.tail t htl
    exact ⟨n, ht t htl n hn, hnx⟩⟩

theorem valid_ext {h H : Heap T} {l : forward_list} {cs : List (Nat × T)}
    (hv : Valid h l cs) (hext : ∀ (a : Nat) n, h[a]? = some n → H[a]? = some n) :
    Valid H l cs :=
  valid_keep hv (fun _ _ n hn => hext _ n hn) (fun t _ n hn => hext t n hn)

theorem valid_tail_lt {h : Heap T} {l : forward_list} {cs : List (Nat × T)}
    (hv : Valid h l cs) {t : Nat} (ht : l.m_tail = some t) : t < h.length := by
  obtain ⟨n, hn, _⟩ := hv.tail t ht
  exact getElem?_lt hn

theorem sep_symm {h : Heap T} {a b : forward_list} {as bs : List (Nat × T)}
    (hs : Sep h a b as bs) : Sep h b a bs as :=
  ⟨hs.vb, hs.va, fun y hy x hx => Ne.symm (hs.disj x hx y hy), hs.tb, hs.ta⟩

theorem step_sep {h h1 : Heap T} {a b b1 : forward_list} {as bs : List (Nat × T)}
    (hs : Sep h a b as bs) (hst : Step (h, b) (h1, b1)) :
    ∃ bs1, Sep h1 a b1 as bs1 := by
  obtain ⟨bs1, hv1, heff, htl⟩ := step_effect hst hs.vb
  have hkeep : ∀ (x : Nat) n, h[x]? = some n → (∀ y ∈ bs, y.1 ≠ x) → h1[x]? = some n :=
    heff.keep
  refine ⟨bs1, ⟨?_, hv1, ?_, ?_, ?_⟩⟩
  · exact valid_keep hs.va
      (fun x hx n hn => hkeep _ n hn (fun y hy => Ne.symm (hs.disj x hx y hy)))
      (fun t ht n hn => hkeep _ n hn (hs.ta t ht))
  · intro x hx y hy
    have hxlt := seg_lt hs.va.chain x hx
    rcases heff.fresh y hy with ⟨d, hd, hdy⟩ | hge
    · rw [← hdy]; exact hs.disj x hx d hd
    · have hge2 : h.length ≤ y.1 := hge
      omega
  · intro t ht y hy
    have htlt := valid_tail_lt hs.va ht
    rcases heff.fresh y hy with ⟨d, hd, hdy⟩ | hge
    · rw [← hdy]; exact hs.ta t ht d hd
    · have hge2 : h.length ≤ y.1 := hge
      omega
  · intro t ht x hx
    have hxlt := seg_lt hs.va.chain x hx
    rcases htl t ht with hold | hge
    · exact hs.tb t hold x hx
    · have hge2 : h.length ≤ t := hge
      omega

theorem step2_sep {s s1 : Heap T × forward_list × forward_list} {as bs : List (Nat × T)}
    (hs : Sep s.1 s.2.1 s.2.2 as bs) (hst : Step2 s s1) :
    ∃ as1 bs1, Sep s1.1 s1.2.1 s1.2.2 as1 bs1 := by
  cases hst with
  | left b hstep =>
    obtain ⟨as1, hsep⟩ := step_sep (sep_symm hs) hstep
    exact ⟨as1, bs, sep_symm hsep⟩
  | right a hstep =>
    obtain ⟨bs1, hsep⟩ := step_sep hs hstep
    exact ⟨as, bs1, hsep⟩

theorem steps2_sep {s s1 : Heap T × forward_list × forward_list}
    (hst : Relation.ReflTransGen Step2 s s1) :
    (∃ as bs, Sep s.1 s.2.1 s.2.2 as bs) → ∃ as1 bs1, Sep s1.1 s1.2.1 s1.2.2 as1 bs1 := by
  induction hst with
  | refl => exact id
  | tail _ hstep ih =>
    intro h0
    obtain ⟨as, bs, hsep⟩ := ih h0
    exact step2_sep hsep hstep

theorem copy_sep {h h1 : Heap T} {l c : forward_list} {fuel : Nat}
    (hr : Reachable h l) (hc : forward_list.copy fuel h l = .ok (h1, c)) :
    ∃ as bs, Sep h1 l c as bs := by
  obtain ⟨cs, hv⟩ := reachable_valid hr
  have hne : l.m_head ≠ none := by
    intro h0
    simp [forward_list.copy, h0, throw, throwThe, MonadExceptOf.throw, bind, Except.bind] at hc
  obtain ⟨h2, c2, cs1, hrun, hv1, _, _, _, hext, hfresh, ⟨t, ht, htge⟩, _⟩ := copy_valid hv hne
  have h1e := copy_mono hc l.m_size
  rw [Nat.add_comm, hrun fuel] at h1e
  cases h1e
  refine ⟨cs, cs1, ⟨valid_ext hv hext, hv1, ?_, ?_, ?_⟩⟩
  · intro x hx y hy
    have := seg_lt hv.chain x hx
    have := hfresh y hy
    omega
  · intro t2 ht2 y hy
    have := valid_tail_lt hv ht2
    have := hfresh y hy
    omega
  · intro t2 ht2 x hx
    rw [ht] at ht2
    have : t = t2 := Option.some.inj ht2
    have := seg_lt hv.chain x hx
    omega

theorem sep_observe {h h1 : Heap T} {a b b1 : forward_list} {as bs : List (Nat × T)}
    (hs : Sep h a b as bs) (hst : Step (h, b) (h1, b1)) :
    ∃ xs, (∀ k, values (a.size + k) h a = .ok xs) ∧
      (∀ k, values (a.size + k) h1 a = .ok xs) ∧
      (a.empty = false → ∃ x, read_front h a = .ok x ∧ read_front h1 a = .ok x) := by
  obtain ⟨bs1, hsep⟩ := step_sep hs hst
  refine ⟨as.map Prod.snd, values_valid hs.va, values_valid hsep.va, ?_⟩
  intro hne
  cases as with
  | nil =>
    have := valid_head_nil hs.va
    simp [forward_list.empty, this] at hne
  | cons c cs => exact ⟨c.2, read_front_cons hs.va, read_front_cons hsep.va⟩


theorem load_error {h : Heap T} {p : node_pointer} {e : Exn σ}
    (he : (load h p : Except (Exn σ) (forward_list_node T)) = .error e) :
    e = .undefined_behaviour := by
  unfold load at he
  split at he
  · exact (Except.error.inj he).symm
  · split at he
    · exact (Except.error.inj he).symm
    · cases he

theorem store_next_error {h : Heap T} {p q : node_pointer} {e : Exn σ}
    (he : (store_next h p q : Except (Exn σ) (Heap T)) = .error e) :
    e = .undefined_behaviour := by
  unfold store_next at he
  split at he
  · exact (Except.error.inj he).symm
  · split at he
    · exact (Except.error.inj he).symm
    · cases he

theorem copy_loop_error (fuel : Nat) :
    ∀ (H : Heap T) (cur oth : node_pointer) (e : Exn (Heap T)),
      forward_list.copy_loop fuel H cur oth = .error e →
      e = .undefined_behaviour ∨ e = .out_of_fuel := by
  induction fuel with
  | zero =>
    intro H cur oth e he
    unfold forward_list.copy_loop at he
    cases hl : (load H oth : Except (Exn (Heap T)) _) with
    | error e1 =>
      rw [hl] at he
      simp only [bind, Except.bind] at he
      cases he
      exact Or.inl (load_error hl)
    | ok o =>
      rw [hl] at he
      simp only [bind, Except.bind] at he
      by_cases ho : o.next = none
      · simp [ho, pure, Except.pure] at he
      · simp only [ho, if_false, throw, throwThe, MonadExceptOf.throw] at he
        cases he
        exact Or.inr rfl
  | succ fuel ih =>
    intro H cur oth e he
    unfold forward_list.copy_loop at he
    cases hl : (load H oth : Except (Exn (Heap T)) _) with
    | error e1 =>
      rw [hl] at he
      simp only [bind, Except.bind] at he
      cases he
      exact Or.inl (load_error hl)
    | ok o =>
      rw [hl] at he
      simp only [bind, Except.bind] at he
      by_cases ho : o.next = none
      · simp [ho, pure, Except.pure] at he
      · simp only [ho, if_false] at he
        cases hl1 : (load H o.next : Except (Exn (Heap T)) _) with
        | error e1 =>
          rw [hl1] at he
          cases he
          exact Or.inl (load_error hl1)
        | ok o1 =>
          rw [hl1] at he
          simp only at he
          cases hs : (store_next (make_shared H { value := o1.value }).1 cur
              (some (make_shared H { value := o1.value }).2) : Except (Exn (Heap T)) _) with
          | error e1 =>
            rw [hs] at he
            cases he
            exact Or.inl (store_next_error hs)
          | ok h2 =>
            rw [hs] at he
            simp only at he
            cases hc : (load h2 cur : Except (Exn (Heap T)) _) with
            | error e1 =>
              rw [hc] at he
              cases he
              exact Or.inl (load_error hc)
            | ok cn =>
              rw [hc] at he
              simp only at he
              cases ho2 : (load h2 oth : Except (Exn (Heap T)) _) with
              | error e1 =>
                rw [ho2] at he
                cases he
                exact Or.inl (load_error ho2)
              | ok o2 =>
                rw [ho2] at he
                simp only at he
                exact ih _ _ _ _ he

theorem copy_error {fuel : Nat} {h : Heap T} {other : forward_list} {e : Exn (Heap T)}
    (hne : other.m_head ≠ none) (he : forward_list.copy fuel h other = .error e) :
    e = .undefined_behaviour ∨ e = .out_of_fuel := by
  unfold forward_list.copy at he
  simp only [hne, if_false, bind, Except.bind, pure, Except.pure] at he
  cases hl : (load h other.m_head : Except (Exn (Heap T)) _) with
  | error e1 =>
    rw [hl] at he
    cases he
    exact Or.inl (load_error hl)
  | ok o =>
    rw [hl] at he
    simp only at he
    cases hc : forward_list.copy_loop fuel (make_shared h { value := o.value }).1
        (some (make_shared h { value := o.value }).2) other.m_head with
    | error e1 =>
      rw [hc] at he
      cases he
      exact copy_loop_error _ _ _ _ _ hc
    | ok r1 =>
      rw [hc] at he
      simp only at he
      cases hs : (store_next r1.1 r1.2 none : Except (Exn (Heap T)) _) with
      | error e1 =>
        rw [hs] at he
        cases he
        exact Or.inl (store_next_error hs)
      | ok h3 =>
        rw [hs] at he
        cases he

theorem reachable_append {l : forward_list} (e : Heap T) :
    ∀ (h : Heap T), Reachable h l → Reachable (h ++ e) l := by
  induction e with
  | nil => intro h hr; rw [List.append_nil]; exact hr
  | cons n e ih =>
    intro h hr
    have : h ++ n :: e = (h ++ [n]) ++ e := by simp
    rw [this]
    exact ih _ (Reachable.frame hr (Frame.alloc h n))

theorem reachable_ext {h H : Heap T} {l : forward_list} (hr : Reachable h l)
    (hext : ∀ (a : Nat) n, h[a]? = some n → H[a]? = some n) : Reachable H l := by
  have hH : H = h ++ H.drop h.length := by
    apply List.ext_getElem?
    intro i
    rcases Nat.lt_or_ge i h.length with hi | hi
    · rw [List.getElem?_append_left hi]
      have : h[i]? = some h[i] := List.getElem?_eq_getElem hi
      rw [this]
      exact hext i _ this
    · rw [List.getElem?_append_right hi, List.getElem?_drop]
      congr 1
      omega
  rw [hH]
  exact reachable_append _ h hr

theorem seg_start_eq {h H : Heap T} {p q : node_pointer} {cs : List (Nat × T)}
    (h1 : Seg h p cs none) (h2 : Seg H q cs none) : p = q := by
  cases cs with
  | nil =>
    have a : p = none := h1
    have b : q = none := h2
    rw [a, b]
  | cons c cs =>
    obtain ⟨a, _⟩ := h1
    obtain ⟨b, _⟩ := h2
    rw [a, b]

/-! ## The claims -/

/-- Claim C1: starting from a default-constructed list (in any store), the calls
`push_front(v1)`, ..., `push_front(vN)` yield a list whose `size()` is `N` and
whose iteration from `begin()` to `end()` completes (with any bound of at least
`N` loop iterations) and yields `vN, ..., v1`. -/
theorem C1_push_front_sequence (h : Heap T) (vs : List T) :
    (push_all h {} vs).2.size = vs.length ∧
      ∀ k, values (vs.length + k) (push_all h {} vs).1 (push_all h {} vs).2 = .ok vs.reverse :=
  push_all_observe h vs

/-- Claim C2: after pushing `v1..vN` onto a default-constructed list, reading
`front()` and calling `pop_front()` `N` times never fails, reads `vN, ..., v1`
in that order and leaves the list empty with `size() == 0`; and for every
reachable list `l` and value `v`, `pop_front` after `push_front(v)` gives back
the list object `l` with its size and its iterated values. -/
theorem C2_lifo_round_trip (h : Heap T) (vs : List T) :
    (∃ l1, drain vs.length (push_all h {} vs).1 (push_all h {} vs).2
          = .ok (((push_all h {} vs).1, l1), vs.reverse) ∧
        l1.size = 0 ∧ l1.empty = true ∧ ∀ k, values k (push_all h {} vs).1 l1 = .ok []) ∧
      (∀ (l : forward_list) (v : T), Reachable h l →
        ∃ xs, forward_list.pop_front (forward_list.push_front h l v).1
              (forward_list.push_front h l v).2 = .ok ((forward_list.push_front h l v).1, l) ∧
          (∀ k, values (l.size + k) h l = .ok xs) ∧
          ∀ k, values (l.size + k) (forward_list.push_front h l v).1 l = .ok xs) := by
  constructor
  · obtain ⟨cs, hv, hm⟩ := push_all_valid vs h {} [] (valid_default h)
    simp only [List.map_nil, List.append_nil] at hm
    have hlen : cs.length = vs.length := by
      have := congrArg List.length hm
      simpa using this
    obtain ⟨l1, hrun, hv1⟩ := drain_valid _ hv
    rw [hlen, hm] at hrun
    obtain ⟨h1, h2, h3, _⟩ := valid_nil_observe hv1
    exact ⟨l1, hrun, h1, h2, h3⟩
  · intro l v hr
    obtain ⟨cs, hv⟩ := reachable_valid hr
    obtain ⟨nx, hn, hpop, hv1⟩ := pop_front_cons (push_front_valid hv v)
    have hnx : nx = l.m_head := by
      simp [forward_list.push_front, make_shared] at hn
      exact hn.symm
    have hl : ({ (forward_list.push_front h l v).2 with m_head := nx, m_size := cs.length }
        : forward_list) = l := by
      cases l
      simp [forward_list.push_front, make_shared, hnx]
      exact hv.size.symm
    rw [hl] at hpop hv1
    exact ⟨cs.map Prod.snd, hpop, values_valid hv, values_valid hv1⟩

/-- A concrete instance of claim C2: the list holding `7`, pushed onto with `9`. -/
theorem C2_lifo_round_trip_witness :
    Reachable ([⟨none, 7⟩] : Heap Nat) ⟨1, some 0, none⟩ ∧
      ∃ xs, forward_list.pop_front
            (forward_list.push_front ([⟨none, 7⟩] : Heap Nat) ⟨1, some 0, none⟩ 9).1
            (forward_list.push_front ([⟨none, 7⟩] : Heap Nat) ⟨1, some 0, none⟩ 9).2
          = .ok ((forward_list.push_front ([⟨none, 7⟩] : Heap Nat) ⟨1, some 0, none⟩ 9).1,
              ⟨1, some 0, none⟩) ∧
        (∀ k, values (1 + k) ([⟨none, 7⟩] : Heap Nat) ⟨1, some 0, none⟩ = .ok xs) ∧
        ∀ k, values (1 + k)
          (forward_list.push_front ([⟨none, 7⟩] : Heap Nat) ⟨1, some 0, none⟩ 9).1
          ⟨1, some 0, none⟩ = .ok xs :=
  ⟨Reachable.step (Reachable.default []) (Step.push_front [] {} 7),
    (C2_lifo_round_trip ([⟨none, 7⟩] : Heap Nat) [3, 4]).2 ⟨1, some 0, none⟩ 9
      (Reachable.step (Reachable.default []) (Step.push_front [] {} 7))⟩

/-- Claim C3: on a reachable list `pop_front()` throws the empty-container
exception exactly when `size()` is 0, and then in the unchanged state; it fails
in no other way; when `size()` is not 0 it succeeds, the new contents are the old
contents without their first element, and `size()` has gone down by one. -/
theorem C3_pop_front {h : Heap T} {l : forward_list} (hr : Reachable h l) :
    (forward_list.pop_front h l = .error (.list_was_empty (h, l)) ↔ l.size = 0) ∧
      (∀ e, forward_list.pop_front h l = .error e → e = .list_was_empty (h, l)) ∧
      (l.size ≠ 0 → ∃ x xs h1 l1, forward_list.pop_front h l = .ok (h1, l1) ∧
        (∀ k, values (l.size + k) h l = .ok (x :: xs)) ∧
        (∀ k, values (l1.size + k) h1 l1 = .ok xs) ∧ l1.size + 1 = l.size) := by
  obtain ⟨cs, hv⟩ := reachable_valid hr
  cases cs with
  | nil =>
    have hsz : l.m_size = 0 := hv.size
    have hpop := pop_front_nil hv
    refine ⟨⟨fun _ => hsz, fun _ => hpop⟩, ?_, fun hne => absurd hsz hne⟩
    intro e he
    rw [hpop] at he
    exact (Except.error.inj he).symm
  | cons c cs =>
    obtain ⟨nx, _, hpop, hv1⟩ := pop_front_cons hv
    have hsz : l.m_size = cs.length + 1 := hv.size
    refine ⟨⟨fun he => ?_, fun h0 => ?_⟩, ?_, fun _ => ?_⟩
    · rw [hpop] at he; cases he
    · exfalso
      have : l.m_size = 0 := h0
      omega
    · intro e he
      rw [hpop] at he; cases he
    · refine ⟨c.2, cs.map Prod.snd, h, _, hpop, values_valid hv, values_valid hv1, ?_⟩
      show cs.length + 1 = l.m_size
      exact hsz.symm

/-- A concrete instance of claim C3: `pop_front()` on the list holding `7`. -/
theorem C3_pop_front_witness :
    Reachable ([⟨none, 7⟩] : Heap Nat) ⟨1, some 0, none⟩ ∧
      (forward_list.pop_front ([⟨none, 7⟩] : Heap Nat) ⟨1, some 0, none⟩
          = .error (.list_was_empty ([⟨none, 7⟩], ⟨1, some 0, none⟩)) ↔
        (⟨1, some 0, none⟩ : forward_list).size = 0) :=
  ⟨Reachable.step (Reachable.default []) (Step.push_front [] {} 7),
    (C3_pop_front (Reachable.step (Reachable.default []) (Step.push_front [] {} 7))).1⟩

/-- Claim C4: on every reachable list with exactly one element, `pop_front()`
succeeds and leaves `size() == 0`, `empty() == true` and `begin() == end()`. -/
theorem C4_pop_front_singleton {h : Heap T} {l : forward_list} (hr : Reachable h l)
    (hone : l.size = 1) :
    ∃ h1 l1, forward_list.pop_front h l = .ok (h1, l1) ∧ l1.size = 0 ∧ l1.empty = true ∧
      ∃ e, (forward_list.end_ h1 l1 : Except (Exn Unit) _) = .ok e ∧
        forward_list_iterator.eq l1.begin e = true := by
  obtain ⟨cs, hv⟩ := reachable_valid hr
  have hsz : l.m_size = 1 := hone
  cases cs with
  | nil =>
    have := hv.size
    simp [hsz] at this
  | cons c cs =>
    have hcs : cs = [] := by
      have := hv.size
      rw [hsz] at this
      simp at this
      exact this
    subst hcs
    obtain ⟨nx, _, hpop, hv1⟩ := pop_front_cons hv
    obtain ⟨h1, h2, _, h4⟩ := valid_nil_observe hv1
    exact ⟨h, _, hpop, h1, h2, h4⟩

/-- A concrete instance of claim C4: the copy of the list holding `7`, whose
`m_tail` refers to its only node. -/
theorem C4_pop_front_singleton_witness :
    Reachable ([⟨none, 7⟩, ⟨none, 7⟩] : Heap Nat) ⟨1, some 1, some 1⟩ ∧
      (⟨1, some 1, some 1⟩ : forward_list).size = 1 ∧
      ∃ h1 l1, forward_list.pop_front ([⟨none, 7⟩, ⟨none, 7⟩] : Heap Nat) ⟨1, some 1, some 1⟩
          = .ok (h1, l1) ∧ l1.size = 0 ∧ l1.empty = true ∧
        ∃ e, (forward_list.end_ h1 l1 : Except (Exn Unit) _) = .ok e ∧
          forward_list_iterator.eq l1.begin e = true :=
  ⟨Reachable.copy 1 (Reachable.step (Reachable.default []) (Step.push_front [] {} 7)) rfl,
    rfl,
    C4_pop_front_singleton
      (Reachable.copy 1 (Reachable.step (Reachable.default []) (Step.push_front [] {} 7)) rfl)
      rfl⟩

/-- Claim C5: the list constructed from the sequence `xs` (in any store) has
`size()` equal to the length of `xs` and iterates from `begin()` to `end()` as
exactly `xs`, in the same order; this includes the empty sequence. -/
theorem C5_initializer_list (h : Heap T) (xs : List T) :
    (forward_list.from_initializer_list h xs).2.size = xs.length ∧
      ∀ k, values (xs.length + k) (forward_list.from_initializer_list h xs).1
        (forward_list.from_initializer_list h xs).2 = .ok xs := by
  have := push_all_observe h xs.reverse
  simp only [List.length_reverse, List.reverse_reverse] at this
  exact this


/-- Claim C6: copy construction from a reachable non-empty list `l` succeeds
(given a loop bound of at least `size()`), the copy has the size of `l` and
iterates as the same values in the same order, and `l` is unchanged: the object
is the same, it still iterates as before, every node that existed before the
copy keeps its content, and `l` is again a reachable list of the new store. -/
theorem C6_copy {h : Heap T} {l : forward_list} (hr : Reachable h l)
    (hne : l.empty = false) :
    ∃ h1 c xs, (∀ k, forward_list.copy (l.size + k) h l = .ok (h1, c)) ∧
      c.size = l.size ∧
      (∀ k, values (l.size + k) h l = .ok xs) ∧
      (∀ k, values (c.size + k) h1 c = .ok xs) ∧
      (∀ k, values (l.size + k) h1 l = .ok xs) ∧
      (∀ (a : Nat) n, h[a]? = some n → h1[a]? = some n) ∧
      Reachable h1 l := by
  obtain ⟨cs, hv⟩ := reachable_valid hr
  have hhead : l.m_head ≠ none := by
    intro h0
    simp [forward_list.empty, h0] at hne
  obtain ⟨h1, c, cs1, hrun, hv1, hvals, hsz, _, hext, _⟩ := copy_valid hv hhead
  refine ⟨h1, c, cs.map Prod.snd, hrun, hsz, values_valid hv, ?_,
    values_valid (valid_ext hv hext), hext, reachable_ext hr hext⟩
  intro k
  rw [← hvals]
  exact values_valid hv1 k

/-- A concrete instance of claim C6: copying the list holding `7`. -/
theorem C6_copy_witness :
    Reachable ([⟨none, 7⟩] : Heap Nat) ⟨1, some 0, none⟩ ∧
      (⟨1, some 0, none⟩ : forward_list).empty = false ∧
      ∃ h1 c xs, (∀ k, forward_list.copy ((⟨1, some 0, none⟩ : forward_list).size + k)
            ([⟨none, 7⟩] : Heap Nat) ⟨1, some 0, none⟩ = .ok (h1, c)) ∧
        c.size = (⟨1, some 0, none⟩ : forward_list).size ∧
        (∀ k, values ((⟨1, some 0, none⟩ : forward_list).size + k)
            ([⟨none, 7⟩] : Heap Nat) ⟨1, some 0, none⟩ = .ok xs) ∧
        (∀ k, values (c.size + k) h1 c = .ok xs) ∧
        (∀ k, values ((⟨1, some 0, none⟩ : forward_list).size + k) h1 ⟨1, some 0, none⟩
            = .ok xs) ∧
        (∀ (a : Nat) n, ([⟨none, 7⟩] : Heap Nat)[a]? = some n → h1[a]? = some n) ∧
        Reachable h1 ⟨1, some 0, none⟩ :=
  ⟨Reachable.step (Reachable.default []) (Step.push_front [] {} 7), rfl,
    C6_copy (Reachable.step (Reachable.default []) (Step.push_front [] {} 7)) rfl⟩

/-- Claim C7: let `c` be the copy of a reachable list `l`, and let both lists be
used through their mutating members in any interleaving (`push_front`,
`pop_front`, `emplace_after`, `erase_after`, `clear`, a write through `front()`
or an iterator).  Then any further mutation of the copy leaves the iterated
values and the front value of the original as they were (its size is a member of
the untouched object), and any mutation of the original does the same for the
copy. -/
theorem C7_copy_independence {h h1 h2 : Heap T} {l c l2 c2 : forward_list} (fuel : Nat)
    (hr : Reachable h l) (hc : forward_list.copy fuel h l = .ok (h1, c))
    (hrun : Relation.ReflTransGen Step2 (h1, l, c) (h2, l2, c2)) :
    (∀ h3 c3, Step (h2, c2) (h3, c3) →
        ∃ xs, (∀ k, values (l2.size + k) h2 l2 = .ok xs) ∧
          (∀ k, values (l2.size + k) h3 l2 = .ok xs) ∧
          (l2.empty = false → ∃ x, read_front h2 l2 = .ok x ∧ read_front h3 l2 = .ok x)) ∧
      (∀ h3 l3, Step (h2, l2) (h3, l3) →
        ∃ ys, (∀ k, values (c2.size + k) h2 c2 = .ok ys) ∧
          (∀ k, values (c2.size + k) h3 c2 = .ok ys) ∧
          (c2.empty = false → ∃ y, read_front h2 c2 = .ok y ∧ read_front h3 c2 = .ok y)) := by
  obtain ⟨ls, cs, hsep⟩ := steps2_sep hrun (copy_sep hr hc)
  exact ⟨fun h3 c3 hst => sep_observe hsep hst,
    fun h3 l3 hst => sep_observe (sep_symm hsep) hst⟩

/-- A concrete instance of claim C7: the list holding `7`, its copy, and
`push_front(9)` on the copy. -/
theorem C7_copy_independence_witness :
    Reachable ([⟨none, 7⟩] : Heap Nat) ⟨1, some 0, none⟩ ∧
      forward_list.copy 1 ([⟨none, 7⟩] : Heap Nat) ⟨1, some 0, none⟩
        = .ok ([⟨none, 7⟩, ⟨none, 7⟩], ⟨1, some 1, some 1⟩) ∧
      ∃ xs, (∀ k, values ((⟨1, some 0, none⟩ : forward_list).size + k)
            ([⟨none, 7⟩, ⟨none, 7⟩] : Heap Nat) ⟨1, some 0, none⟩ = .ok xs) ∧
        (∀ k, values ((⟨1, some 0, none⟩ : forward_list).size + k)
            ([⟨none, 7⟩, ⟨none, 7⟩, ⟨some 1, 9⟩] : Heap Nat) ⟨1, some 0, none⟩ = .ok xs) ∧
        ((⟨1, some 0, none⟩ : forward_list).empty = false →
          ∃ x, read_front ([⟨none, 7⟩, ⟨none, 7⟩] : Heap Nat) ⟨1, some 0, none⟩ = .ok x ∧
            read_front ([⟨none, 7⟩, ⟨none, 7⟩, ⟨some 1, 9⟩] : Heap Nat) ⟨1, some 0, none⟩
              = .ok x) :=
  ⟨Reachable.step (Reachable.default []) (Step.push_front [] {} 7), rfl,
    (C7_copy_independence 1
      (Reachable.step (Reachable.default []) (Step.push_front [] {} 7)) rfl
      Relation.ReflTransGen.refl).1 _ _
      (Step.push_front ([⟨none, 7⟩, ⟨none, 7⟩] : Heap Nat) ⟨1, some 1, some 1⟩ 9)⟩

/-- Claim C8: copy construction throws the empty-container exception exactly
when the source is empty (its head is null); the exception is raised in the
unchanged store and no list is produced. -/
theorem C8_copy_empty (fuel : Nat) (h : Heap T) (other : forward_list) :
    (forward_list.copy fuel h other = .error (.list_was_empty h) ↔ other.empty = true) ∧
      (∀ s, forward_list.copy fuel h other = .error (.list_was_empty s) →
        s = h ∧ other.empty = true) := by
  have hempty : other.m_head = none →
      forward_list.copy fuel h other = .error (.list_was_empty h) := by
    intro h0
    simp [forward_list.copy, h0, throw, throwThe, MonadExceptOf.throw, bind, Except.bind]
  have hnot : ∀ s, forward_list.copy fuel h other = .error (.list_was_empty s) →
      other.m_head = none := by
    intro s hs
    by_contra hne
    rcases copy_error hne hs with he | he <;> cases he
  refine ⟨⟨fun hs => ?_, fun he => ?_⟩, fun s hs => ?_⟩
  · simp [forward_list.empty, hnot h hs]
  · apply hempty
    simpa [forward_list.empty] using he
  · have h0 := hnot s hs
    rw [hempty h0] at hs
    refine ⟨?_, by simp [forward_list.empty, h0]⟩
    have := Except.error.inj hs
    cases this
    rfl


/-- Claim C9: on a reachable list with contents `xs`, for a position referencing
the node at index `i < size()` and a value `v`, `emplace_after(position, v)`
succeeds and yields the contents `xs[0..i] ++ [v] ++ xs[i+1..]`; `size()` grows
by exactly one; the returned iterator references the node allocated by the call,
which is the node at index `i + 1` of the new list, and dereferences to `v`; when
`i` is the last index the new contents are `xs ++ [v]`. -/
theorem C9_emplace_after {h : Heap T} {l : forward_list} (hr : Reachable h l) {i : Nat}
    {position : forward_list_iterator} (v : T) (hi : i < l.size)
    (hpos : advance h i l.begin = .ok position) :
    ∃ xs h1 l1 it, (∀ k, values (l.size + k) h l = .ok xs) ∧
      forward_list.emplace_after h l position v = .ok ((h1, l1), it) ∧
      (∀ k, values (l1.size + k) h1 l1 = .ok (xs.take (i + 1) ++ v :: xs.drop (i + 1))) ∧
      l1.size = l.size + 1 ∧
      it.m_node = some h.length ∧
      advance h1 (i + 1) l1.begin = .ok it ∧
      (forward_list_iterator.deref h1 it : Except (Exn Unit) T) = .ok v ∧
      (i + 1 = l.size → ∀ k, values (l1.size + k) h1 l1 = .ok (xs ++ [v])) := by
  obtain ⟨cs, hv⟩ := reachable_valid hr
  have hi2 : i < cs.length := by rw [← hv.size]; exact hi
  obtain ⟨cs1, c, cs2, hsplit, hlen1, hadv⟩ := chain_index hv.chain hi2
  subst hsplit
  have hposeq : position = ⟨some c.1⟩ := by
    have : advance h i l.begin = advance h i ⟨l.m_head⟩ := rfl
    rw [this, hadv] at hpos
    exact (Except.ok.inj hpos).symm
  subst hposeq
  obtain ⟨h1, l1, hrun, hv1, hsz, hhead, _, _, _, _⟩ := emplace_after_valid hv v
  have hchain := hv1.chain
  have hre : cs1 ++ c :: (h.length, v) :: cs2 = (cs1 ++ [c]) ++ (h.length, v) :: cs2 := by simp
  rw [hre] at hchain
  obtain ⟨m, hm1, hm2⟩ := seg_split hchain
  obtain ⟨hm, nx, hn, _⟩ := hm2
  subst hm
  have hadv1 := advance_seg hm1
  have hlen2 : (cs1 ++ [c]).length = i + 1 := by simp [hlen1]
  rw [hlen2] at hadv1
  have htake : (List.map Prod.snd (cs1 ++ c :: cs2)).take (i + 1) = cs1.map Prod.snd ++ [c.2] := by
    have : List.map Prod.snd (cs1 ++ c :: cs2)
        = (cs1.map Prod.snd ++ [c.2]) ++ cs2.map Prod.snd := by simp
    rw [this, List.take_left' (by simp [hlen1])]
  have hdrop : (List.map Prod.snd (cs1 ++ c :: cs2)).drop (i + 1) = cs2.map Prod.snd := by
    have : List.map Prod.snd (cs1 ++ c :: cs2)
        = (cs1.map Prod.snd ++ [c.2]) ++ cs2.map Prod.snd := by simp
    rw [this, List.drop_left' (by simp [hlen1])]
  have hvals : ∀ k, values (l1.size + k) h1 l1
      = .ok ((List.map Prod.snd (cs1 ++ c :: cs2)).take (i + 1)
          ++ v :: (List.map Prod.snd (cs1 ++ c :: cs2)).drop (i + 1)) := by
    intro k
    rw [htake, hdrop]
    have := values_valid hv1 k
    simpa using this
  refine ⟨List.map Prod.snd (cs1 ++ c :: cs2), h1, l1, ⟨some h.length⟩, values_valid hv,
    hrun, hvals, hsz, rfl, hadv1, ?_, ?_⟩
  · simp [forward_list_iterator.deref, load, hn, bind, Except.bind, pure, Except.pure]
  · intro hlast k
    have hcs2 : cs2 = [] := by
      have hsize : l.m_size = (cs1 ++ c :: cs2).length := hv.size
      have hl : i + 1 = l.m_size := hlast
      simp only [List.length_append, List.length_cons] at hsize
      have : cs2.length = 0 := by omega
      exact List.length_eq_zero.1 this
    have := hvals k
    rw [hdrop, htake, hcs2] at this
    rw [hcs2]
    simpa using this

/-- A concrete instance of claim C9: `emplace_after(begin(), 9)` on the list
holding `7`. -/
theorem C9_emplace_after_witness :
    Reachable ([⟨none, 7⟩] : Heap Nat) ⟨1, some 0, none⟩ ∧
      0 < (⟨1, some 0, none⟩ : forward_list).size ∧
      advance ([⟨none, 7⟩] : Heap Nat) 0 (⟨1, some 0, none⟩ : forward_list).begin
        = .ok ⟨some 0⟩ ∧
      ∃ xs h1 l1 it,
        (∀ k, values ((⟨1, some 0, none⟩ : forward_list).size + k)
          ([⟨none, 7⟩] : Heap Nat) ⟨1, some 0, none⟩ = .ok xs) ∧
        forward_list.emplace_after ([⟨none, 7⟩] : Heap Nat) ⟨1, some 0, none⟩ ⟨some 0⟩ 9
          = .ok ((h1, l1), it) ∧
        (∀ k, values (l1.size + k) h1 l1 = .ok (xs.take (0 + 1) ++ 9 :: xs.drop (0 + 1))) ∧
        l1.size = (⟨1, some 0, none⟩ : forward_list).size + 1 ∧
        it.m_node = some ([⟨none, 7⟩] : Heap Nat).length ∧
        advance h1 (0 + 1) l1.begin = .ok it ∧
        (forward_list_iterator.deref h1 it : Except (Exn Unit) Nat) = .ok 9 ∧
        (0 + 1 = (⟨1, some 0, none⟩ : forward_list).size →
          ∀ k, values (l1.size + k) h1 l1 = .ok (xs ++ [9])) :=
  ⟨Reachable.step (Reachable.default []) (Step.push_front [] {} 7), by decide, rfl,
    C9_emplace_after (Reachable.step (Reachable.default []) (Step.push_front [] {} 7)) 9
      (by decide) rfl⟩

/-- Claim C10: on a reachable list with contents `xs`, for a position
referencing the node at index `i` with `i + 1 < size()`, `erase_after(position)`
succeeds and yields `xs` without the element at index `i + 1`; `size()` goes down
by exactly one; the returned iterator references the node that now follows
`position`, which is the former node at index `i + 2`, and it equals `end()`
exactly when the removed node was the last one. -/
theorem C10_erase_after {h : Heap T} {l : forward_list} (hr : Reachable h l) {i : Nat}
    {position : forward_list_iterator} (hi : i + 1 < l.size)
    (hpos : advance h i l.begin = .ok position) :
    ∃ xs h1 l1 it e, (∀ k, values (l.size + k) h l = .ok xs) ∧
      forward_list.erase_after h l position = .ok ((h1, l1), it) ∧
      (∀ k, values (l1.size + k) h1 l1 = .ok (xs.eraseIdx (i + 1))) ∧
      l1.size + 1 = l.size ∧
      advance h1 (i + 1) l1.begin = .ok it ∧
      advance h (i + 2) l.begin = .ok it ∧
      (forward_list.end_ h1 l1 : Except (Exn Unit) _) = .ok e ∧
      (forward_list_iterator.eq it e = true ↔ i + 2 = l.size) := by
  obtain ⟨cs, hv⟩ := reachable_valid hr
  have hi2 : i < cs.length := by rw [← hv.size]; exact Nat.lt_of_succ_lt hi
  obtain ⟨cs1, c, cs2, hsplit, hlen1, hadv⟩ := chain_index hv.chain hi2
  subst hsplit
  have hposeq : position = ⟨some c.1⟩ := by
    have : advance h i l.begin = advance h i ⟨l.m_head⟩ := rfl
    rw [this, hadv] at hpos
    exact (Except.ok.inj hpos).symm
  subst hposeq
  have hsize : l.m_size = (cs1 ++ c :: cs2).length := hv.size
  have hi3 : i + 1 < l.m_size := hi
  cases cs2 with
  | nil =>
    exfalso
    simp at hsize
    omega
  | cons d cs2 =>
    obtain ⟨nx, h1, l1, hrun, hv1, hS, hl1, _, _⟩ := erase_after_valid hv
    have hsz1 : l1.m_size = (cs1 ++ c :: cs2).length := hv1.size
    have hsizes : l1.m_size + 1 = l.m_size := by
      rw [hsz1, hsize]
      simp only [List.length_append, List.length_cons]
      omega
    -- the returned iterator in the new chain
    have hchain1 := hv1.chain
    have hre1 : cs1 ++ c :: cs2 = (cs1 ++ [c]) ++ cs2 := by simp
    rw [hre1] at hchain1
    obtain ⟨m, hm1, hm2⟩ := seg_split hchain1
    have hmnx : m = nx := seg_start_eq hm2 hS
    subst hmnx
    have hadv1 := advance_seg hm1
    have hlen2 : (cs1 ++ [c]).length = i + 1 := by simp [hlen1]
    rw [hlen2] at hadv1
    -- the same node in the old chain
    have hchain0 := hv.chain
    have hre0 : cs1 ++ c :: d :: cs2 = (cs1 ++ [c, d]) ++ cs2 := by simp
    rw [hre0] at hchain0
    obtain ⟨m0, hm01, hm02⟩ := seg_split hchain0
    have hm0 : m0 = m := seg_start_eq hm02 hS
    subst hm0
    have hadv0 := advance_seg hm01
    have hlen3 : (cs1 ++ [c, d]).length = i + 2 := by simp [hlen1]
    rw [hlen3] at hadv0
    have hvals : List.eraseIdx (List.map Prod.snd (cs1 ++ c :: d :: cs2)) (i + 1)
        = List.map Prod.snd (cs1 ++ c :: cs2) := by
      rw [List.eraseIdx_eq_take_drop_succ]
      have e1 : List.map Prod.snd (cs1 ++ c :: d :: cs2)
          = (cs1.map Prod.snd ++ [c.2]) ++ (d.2 :: cs2.map Prod.snd) := by simp
      have e2 : List.map Prod.snd (cs1 ++ c :: d :: cs2)
          = (cs1.map Prod.snd ++ [c.2, d.2]) ++ cs2.map Prod.snd := by simp
      have t1 : List.take (i + 1) (List.map Prod.snd (cs1 ++ c :: d :: cs2))
          = cs1.map Prod.snd ++ [c.2] := by
        rw [e1]; exact List.take_left' (by simp [hlen1])
      have t2 : List.drop (i + 1 + 1) (List.map Prod.snd (cs1 ++ c :: d :: cs2))
          = cs2.map Prod.snd := by
        rw [e2]; exact List.drop_left' (by simp [hlen1])
      rw [t1, t2]
      simp
    refine ⟨List.map Prod.snd (cs1 ++ c :: d :: cs2), h1, l1, ⟨m0⟩, ⟨none⟩, values_valid hv,
      hrun, ?_, hsizes, ?_, hadv0, end_valid hv1, ?_⟩
    · intro k
      rw [hvals]
      exact values_valid hv1 k
    · exact hadv1
    · simp only [forward_list_iterator.eq, beq_iff_eq]
      constructor
      · intro h0
        have h00 : m0 = none := h0
        subst h00
        have hcs2 : cs2 = [] := seg_none_nil hS
        show i + 2 = l.m_size
        rw [hsize, hcs2]; simp [hlen1]
      · intro hlast
        have hl : i + 2 = l.m_size := hlast
        have hcs2 : cs2 = [] := by
          rw [hsize] at hl
          simp only [List.length_append, List.length_cons] at hl
          have : cs2.length = 0 := by omega
          exact List.length_eq_zero.1 this
        subst hcs2
        exact hS

/-- A concrete instance of claim C10: `erase_after(begin())` on the list built
from `{1, 2, 3}`. -/
theorem C10_erase_after_witness :
    Reachable ([⟨none, 3⟩, ⟨some 0, 2⟩, ⟨some 1, 1⟩] : Heap Nat) ⟨3, some 2, none⟩ ∧
      0 + 1 < (⟨3, some 2, none⟩ : forward_list).size ∧
      advance ([⟨none, 3⟩, ⟨some 0, 2⟩, ⟨some 1, 1⟩] : Heap Nat) 0
        (⟨3, some 2, none⟩ : forward_list).begin = .ok ⟨some 2⟩ ∧
      ∃ xs h1 l1 it e,
        (∀ k, values ((⟨3, some 2, none⟩ : forward_list).size + k)
          ([⟨none, 3⟩, ⟨some 0, 2⟩, ⟨some 1, 1⟩] : Heap Nat) ⟨3, some 2, none⟩ = .ok xs) ∧
        forward_list.erase_after ([⟨none, 3⟩, ⟨some 0, 2⟩, ⟨some 1, 1⟩] : Heap Nat)
          ⟨3, some 2, none⟩ ⟨some 2⟩ = .ok ((h1, l1), it) ∧
        (∀ k, values (l1.size + k) h1 l1 = .ok (xs.eraseIdx (0 + 1))) ∧
        l1.size + 1 = (⟨3, some 2, none⟩ : forward_list).size ∧
        advance h1 (0 + 1) l1.begin = .ok it ∧
        advance ([⟨none, 3⟩, ⟨some 0, 2⟩, ⟨some 1, 1⟩] : Heap Nat) (0 + 2)
          (⟨3, some 2, none⟩ : forward_list).begin = .ok it ∧
        (forward_list.end_ h1 l1 : Except (Exn Unit) _) = .ok e ∧
        (forward_list_iterator.eq it e = true ↔
          0 + 2 = (⟨3, some 2, none⟩ : forward_list).size) :=
  ⟨Reachable.initializer_list [] [1, 2, 3], by decide, rfl,
    C10_erase_after (Reachable.initializer_list [] [1, 2, 3]) (by decide) rfl⟩


/-! ## Further lemmas on the chain -/

theorem advance_chain_get {h : Heap T} {p : node_pointer} {cs : List (Nat × T)} {i : Nat}
    (hs : Seg h p cs none) (hi : i < cs.length) :
    advance h i ⟨p⟩ = .ok ⟨some (cs[i]).1⟩ := by
  have hsplit : cs.take i ++ cs[i] :: cs.drop (i + 1) = cs := by
    rw [← List.drop_eq_getElem_cons hi, List.take_append_drop]
  have hlen : (cs.take i).length = i := by
    rw [List.length_take]; omega
  have hs2 : Seg h p (cs.take i ++ cs[i] :: cs.drop (i + 1)) none := by
    rw [hsplit]; exact hs
  obtain ⟨m, hm1, hm2⟩ := seg_split hs2
  obtain ⟨hm, _⟩ := hm2
  have := advance_seg hm1
  rw [hlen, hm] at this
  exact this

theorem advance_chain_ne {h : Heap T} {p : node_pointer} {cs : List (Nat × T)} {i j : Nat}
    (hs : Seg h p cs none) (hij : i < j) (hj : j < cs.length) :
    advance h i ⟨p⟩ ≠ advance h j ⟨p⟩ := by
  have hi : i < cs.length := Nat.lt_trans hij hj
  rw [advance_chain_get hs hi, advance_chain_get hs hj]
  intro heq
  have h1 : (cs[i]).1 = (cs[j]).1 := by
    have := Except.ok.inj heq
    have := congrArg forward_list_iterator.m_node this
    exact Option.some.inj this
  have hnd := chain_nodup hs
  have hi2 : i < (cs.map Prod.fst).length := by simpa using hi
  have hj2 : j < (cs.map Prod.fst).length := by simpa using hj
  have h2 : (cs.map Prod.fst)[i] = (cs.map Prod.fst)[j] := by
    rw [List.getElem_map, List.getElem_map]; exact h1
  have := (List.Nodup.getElem_inj_iff hnd).1 h2
  omega

theorem clear_error {h : Heap T} (fuel : Nat) :
    ∀ (l : forward_list) (cs : List (Nat × T)) (e : Exn (Heap T × forward_list)),
      Valid h l cs → forward_list.clear fuel h l = .error e → e = .out_of_fuel := by
  induction fuel with
  | zero =>
    intro l cs e hv he
    unfold forward_list.clear at he
    by_cases hsz : l.m_size = 0
    · simp [hsz, pure, Except.pure] at he
    · simp only [hsz, if_false, throw, throwThe, MonadExceptOf.throw] at he
      exact (Except.error.inj he).symm
  | succ fuel ih =>
    intro l cs e hv he
    unfold forward_list.clear at he
    by_cases hsz : l.m_size = 0
    · simp [hsz, pure, Except.pure] at he
    · cases cs with
      | nil => exact absurd hv.size hsz
      | cons c cs =>
        obtain ⟨nx, _, hpop, hv1⟩ := pop_front_cons hv
        simp only [hsz, if_false, hpop, bind, Except.bind] at he
        exact ih _ cs e hv1 he


theorem front_cons {h : Heap T} {l : forward_list} {c : Nat × T} {cs : List (Nat × T)}
    (hv : Valid h l (c :: cs)) :
    l.m_head = some c.1 ∧ forward_list.front h l = .ok (some c.1) ∧
      (forward_list_iterator.deref h l.begin : Except (Exn Unit) T) = .ok c.2 := by
  obtain ⟨hp, nx, hn, _⟩ := hv.chain
  refine ⟨hp, ?_, ?_⟩
  · simp [forward_list.front, hp, load, hn, bind, Except.bind, pure, Except.pure]
  · simp [forward_list_iterator.deref, forward_list.begin, hp, load, hn, bind, Except.bind,
      pure, Except.pure]

theorem front_nil {h : Heap T} {l : forward_list} (hv : Valid h l []) :
    forward_list.front h l = .error (.list_was_empty (h, l)) := by
  simp [forward_list.front, valid_head_nil hv, throw, throwThe, MonadExceptOf.throw,
    bind, Except.bind]

/-! ## The claims, continued -/

/-- Claim C11: on every empty list (`empty()` holds: the head is null; on a
reachable list this is the same as `size() == 0`) and for every position
argument, the end iterator and dangling ones included, `erase_after(position)`
throws the empty-container exception in the unchanged state: the position is
not dereferenced, size and head stay as they were. -/
theorem C11_erase_after_empty (h : Heap T) (l : forward_list)
    (position : forward_list_iterator) (hl : l.empty = true) :
    forward_list.erase_after h l position = .error (.list_was_empty (h, l)) := by
  have h0 : l.m_head = none := by
    simpa [forward_list.empty] using hl
  simp [forward_list.erase_after, h0, throw, throwThe, MonadExceptOf.throw, bind, Except.bind]

/-- A concrete instance of claim C11: `erase_after(end())` on the
default-constructed list. -/
theorem C11_erase_after_empty_witness :
    ({} : forward_list).empty = true ∧
      forward_list.erase_after ([] : Heap Nat) {} ⟨none⟩ = .error (.list_was_empty ([], {})) :=
  ⟨rfl, C11_erase_after_empty ([] : Heap Nat) {} ⟨none⟩ rfl⟩

/-- Claim C12: on every reachable list `clear()` terminates (any loop bound of at
least `size()` rounds suffices) and never raises the empty-container exception;
afterwards `empty()` is true, `size() == 0` and `begin() == end()`; on a list
that is already empty it changes nothing. -/
theorem C12_clear {h : Heap T} {l : forward_list} (hr : Reachable h l) :
    ∃ l1, (∀ k, forward_list.clear (l.size + k) h l = .ok (h, l1)) ∧
      (∀ fuel e, forward_list.clear fuel h l = .error e → e = .out_of_fuel) ∧
      l1.empty = true ∧ l1.size = 0 ∧
      (∃ e, (forward_list.end_ h l1 : Except (Exn Unit) _) = .ok e ∧
        forward_list_iterator.eq l1.begin e = true) ∧
      (l.size = 0 → l1 = l) := by
  obtain ⟨cs, hv⟩ := reachable_valid hr
  have hsz : l.m_size = cs.length := hv.size
  obtain ⟨h1, h2, _, h4⟩ := valid_nil_observe (clear_valid hv 0).2
  refine ⟨{ l with m_head := none, m_size := 0 }, ?_, ?_, h2, h1, h4, ?_⟩
  · intro k
    show forward_list.clear (l.m_size + k) h l = _
    rw [hsz]
    exact (clear_valid hv k).1
  · intro fuel e he
    exact clear_error fuel l cs e hv he
  · intro h0
    have h00 : l.m_size = 0 := h0
    have hhead : l.m_head = none := (valid_empty_iff hv).2 h00
    cases l
    simp at h00 hhead
    simp [h00, hhead]

/-- A concrete instance of claim C12: `clear()` on the list built from `{1, 2, 3}`. -/
theorem C12_clear_witness :
    Reachable ([⟨none, 3⟩, ⟨some 0, 2⟩, ⟨some 1, 1⟩] : Heap Nat) ⟨3, some 2, none⟩ ∧
      ∃ l1, (∀ k, forward_list.clear ((⟨3, some 2, none⟩ : forward_list).size + k)
            ([⟨none, 3⟩, ⟨some 0, 2⟩, ⟨some 1, 1⟩] : Heap Nat) ⟨3, some 2, none⟩
          = .ok ([⟨none, 3⟩, ⟨some 0, 2⟩, ⟨some 1, 1⟩], l1)) ∧
        (∀ fuel e, forward_list.clear fuel
            ([⟨none, 3⟩, ⟨some 0, 2⟩, ⟨some 1, 1⟩] : Heap Nat) ⟨3, some 2, none⟩ = .error e →
          e = .out_of_fuel) ∧
        l1.empty = true ∧ l1.size = 0 ∧
        (∃ e, (forward_list.end_ ([⟨none, 3⟩, ⟨some 0, 2⟩, ⟨some 1, 1⟩] : Heap Nat) l1
              : Except (Exn Unit) _) = .ok e ∧
          forward_list_iterator.eq l1.begin e = true) ∧
        ((⟨3, some 2, none⟩ : forward_list).size = 0 → l1 = ⟨3, some 2, none⟩) :=
  ⟨Reachable.initializer_list [] [1, 2, 3],
    C12_clear (Reachable.initializer_list [] [1, 2, 3])⟩

/-- Claim C13: on every reachable list the mutable `front()` throws the
empty-container exception exactly when the list is empty, and fails in no other
way; on a non-empty list it returns a reference to the node at `begin()`, whose
value is the first element in iteration order; a write through that reference
replaces the first element and changes no other node; and immediately after
`push_front(v)` the value of `front()` is `v`. -/
theorem C13_front {h : Heap T} {l : forward_list} (hr : Reachable h l) :
    (forward_list.front h l = .error (.list_was_empty (h, l)) ↔ l.empty = true) ∧
      (∀ e, forward_list.front h l = .error e → e = .list_was_empty (h, l)) ∧
      (l.empty = false → ∃ x xs, (∀ k, values (l.size + k) h l = .ok (x :: xs)) ∧
        forward_list.front h l = .ok l.begin.m_node ∧ read_front h l = .ok x ∧
        (forward_list_iterator.deref h l.begin : Except (Exn Unit) T) = .ok x ∧
        ∀ v, ∃ h1, (store_value h l.begin.m_node v : Except (Exn Unit) _) = .ok h1 ∧
          (∀ k, values (l.size + k) h1 l = .ok (v :: xs)) ∧ read_front h1 l = .ok v ∧
          (∀ (a : Nat), some a ≠ l.begin.m_node → h1[a]? = h[a]?)) ∧
      (∀ v, read_front (forward_list.push_front h l v).1 (forward_list.push_front h l v).2
        = .ok v) := by
  obtain ⟨cs, hv⟩ := reachable_valid hr
  have hpush : ∀ v, read_front (forward_list.push_front h l v).1
      (forward_list.push_front h l v).2 = .ok v :=
    fun v => read_front_cons (push_front_valid hv v)
  cases cs with
  | nil =>
    have hh := valid_head_nil hv
    have hfront := front_nil hv
    refine ⟨⟨fun _ => by simp [forward_list.empty, hh], fun _ => hfront⟩, ?_, ?_, hpush⟩
    · intro e he
      rw [hfront] at he
      exact (Except.error.inj he).symm
    · intro hne
      simp [forward_list.empty, hh] at hne
  | cons c cs =>
    obtain ⟨hp, hfront, hderef⟩ := front_cons hv
    refine ⟨⟨fun he => ?_, fun he => ?_⟩, ?_, fun _ => ?_, hpush⟩
    · rw [hfront] at he; cases he
    · simp [forward_list.empty, hp] at he
    · intro e he
      rw [hfront] at he; cases he
    · refine ⟨c.2, cs.map Prod.snd, values_valid hv, ?_, read_front_cons hv, hderef, ?_⟩
      · rw [hfront]; simp [forward_list.begin, hp]
      · intro v
        have hv0 : Valid h l ([] ++ c :: cs) := hv
        obtain ⟨nx, hst, hv1⟩ := assign_valid hv0 v
        refine ⟨h.set c.1 ⟨nx, v⟩, ?_, values_valid hv1, read_front_cons hv1, ?_⟩
        · show (store_value h l.m_head v : Except (Exn Unit) _) = _
          rw [hp]; exact hst
        · intro a ha
          have hac : c.1 ≠ a := by
            intro e
            apply ha
            show some a = l.m_head
            rw [hp, e]
          exact List.getElem?_set_ne hac

/-- A concrete instance of claim C13: `front()` on the list holding `7`. -/
theorem C13_front_witness :
    Reachable ([⟨none, 7⟩] : Heap Nat) ⟨1, some 0, none⟩ ∧
      (forward_list.front ([⟨none, 7⟩] : Heap Nat) ⟨1, some 0, none⟩
          = .error (.list_was_empty ([⟨none, 7⟩], ⟨1, some 0, none⟩)) ↔
        (⟨1, some 0, none⟩ : forward_list).empty = true) ∧
      read_front (forward_list.push_front ([⟨none, 7⟩] : Heap Nat) ⟨1, some 0, none⟩ 9).1
        (forward_list.push_front ([⟨none, 7⟩] : Heap Nat) ⟨1, some 0, none⟩ 9).2 = .ok 9 :=
  ⟨Reachable.step (Reachable.default []) (Step.push_front [] {} 7),
    (C13_front (Reachable.step (Reachable.default []) (Step.push_front [] {} 7))).1,
    (C13_front (Reachable.step (Reachable.default []) (Step.push_front [] {} 7))).2.2.2 9⟩


/-- Claim C14: on every reachable list (whether `m_tail` was never set, refers
to the last node, or refers to a node that was removed) `end()` is the iterator
holding null; `size()` pre-increments of `begin()` arrive at an iterator equal to
`end()`, fewer increments arrive at an iterator different from `end()`; and
`begin() == end()` holds exactly when the list is empty. -/
theorem C14_begin_end {h : Heap T} {l : forward_list} (hr : Reachable h l) :
    (forward_list.end_ h l : Except (Exn Unit) _) = .ok ⟨none⟩ ∧
      (∃ it, advance h l.size l.begin = .ok it ∧ forward_list_iterator.eq it ⟨none⟩ = true) ∧
      (∀ i, i < l.size →
        ∃ it, advance h i l.begin = .ok it ∧ forward_list_iterator.eq it ⟨none⟩ = false) ∧
      (forward_list_iterator.eq l.begin ⟨none⟩ = true ↔ l.empty = true) ∧
      (l.empty = true ↔ l.size = 0) := by
  obtain ⟨cs, hv⟩ := reachable_valid hr
  have hsz : l.m_size = cs.length := hv.size
  refine ⟨end_valid hv, ⟨⟨none⟩, ?_, rfl⟩, ?_, ?_, ?_⟩
  · show advance h l.m_size ⟨l.m_head⟩ = _
    rw [hsz]
    exact advance_seg hv.chain
  · intro i hi
    have hi2 : i < cs.length := by rw [← hsz]; exact hi
    exact ⟨⟨some (cs[i]).1⟩, advance_chain_get hv.chain hi2, rfl⟩
  · simp [forward_list_iterator.eq, forward_list.begin, forward_list.empty]
  · have := valid_empty_iff hv
    simp only [forward_list.empty, forward_list.size, Option.isNone_iff_eq_none]
    exact this

/-- A concrete instance of claim C14: the copy of the list holding `7` after
`pop_front()`; its `m_tail` still refers to the removed node. -/
theorem C14_begin_end_witness :
    Reachable ([⟨none, 7⟩, ⟨none, 7⟩] : Heap Nat) ⟨0, none, some 1⟩ ∧
      (forward_list.end_ ([⟨none, 7⟩, ⟨none, 7⟩] : Heap Nat) ⟨0, none, some 1⟩
          : Except (Exn Unit) _) = .ok ⟨none⟩ ∧
      (forward_list_iterator.eq (⟨0, none, some 1⟩ : forward_list).begin ⟨none⟩ = true ↔
        (⟨0, none, some 1⟩ : forward_list).empty = true) :=
  ⟨Reachable.step
      (Reachable.copy 1 (Reachable.step (Reachable.default []) (Step.push_front [] {} 7)) rfl)
      (Step.pop_front rfl),
    (C14_begin_end (Reachable.step
      (Reachable.copy 1 (Reachable.step (Reachable.default []) (Step.push_front [] {} 7)) rfl)
      (Step.pop_front rfl))).1,
    (C14_begin_end (Reachable.step
      (Reachable.copy 1 (Reachable.step (Reachable.default []) (Step.push_front [] {} 7)) rfl)
      (Step.pop_front rfl))).2.2.2.1⟩

/-- Claim C15: in every reachable list state the chain from the head ends at
null after exactly `size()` links, every earlier link leads to a node, no node is
visited twice (the chain is acyclic), so `size()` is the number of nodes reachable
from the head; and `empty()` holds exactly when `size() == 0`. -/
theorem C15_size_invariant {h : Heap T} {l : forward_list} (hr : Reachable h l) :
    advance h l.size l.begin = .ok ⟨none⟩ ∧
      (∀ i, i < l.size → ∃ a, advance h i l.begin = .ok ⟨some a⟩) ∧
      (∀ i j, i < j → j < l.size → advance h i l.begin ≠ advance h j l.begin) ∧
      (∃ cs, Seg h l.m_head cs none ∧ cs.length = l.size ∧ (cs.map Prod.fst).Nodup) ∧
      (l.empty = true ↔ l.size = 0) := by
  obtain ⟨cs, hv⟩ := reachable_valid hr
  have hsz : l.m_size = cs.length := hv.size
  refine ⟨?_, ?_, ?_, ⟨cs, hv.chain, hsz.symm, chain_nodup hv.chain⟩, ?_⟩
  · show advance h l.m_size ⟨l.m_head⟩ = _
    rw [hsz]
    exact advance_seg hv.chain
  · intro i hi
    have hi2 : i < cs.length := by rw [← hsz]; exact hi
    exact ⟨(cs[i]).1, advance_chain_get hv.chain hi2⟩
  · intro i j hij hj
    have hj2 : j < cs.length := by rw [← hsz]; exact hj
    exact advance_chain_ne hv.chain hij hj2
  · have := valid_empty_iff hv
    simp only [forward_list.empty, forward_list.size, Option.isNone_iff_eq_none]
    exact this

/-- A concrete instance of claim C15: the list built from `{1, 2, 3}`. -/
theorem C15_size_invariant_witness :
    Reachable ([⟨none, 3⟩, ⟨some 0, 2⟩, ⟨some 1, 1⟩] : Heap Nat) ⟨3, some 2, none⟩ ∧
      advance ([⟨none, 3⟩, ⟨some 0, 2⟩, ⟨some 1, 1⟩] : Heap Nat)
        (⟨3, some 2, none⟩ : forward_list).size (⟨3, some 2, none⟩ : forward_list).begin
        = .ok ⟨none⟩ :=
  ⟨Reachable.initializer_list [] [1, 2, 3],
    (C15_size_invariant (Reachable.initializer_list [] [1, 2, 3])).1⟩


/-- Claim C16, evaluated on the code: `push_front` never assigns `m_tail`.  After
`push_front(7)` on the default-constructed list the head refers to the new node
and `size()` is 1, but the tail reference is still null. -/
theorem C16_push_front_leaves_tail :
    (forward_list.push_front ([] : Heap Nat) {} 7).2.m_head = some 0 ∧
      (forward_list.push_front ([] : Heap Nat) {} 7).2.size = 1 ∧
      (forward_list.push_front ([] : Heap Nat) {} 7).2.m_tail = none ∧
      ∀ (h : Heap Nat) (l : forward_list) (v : Nat),
        (forward_list.push_front h l v).2.m_tail = l.m_tail :=
  ⟨rfl, rfl, rfl, fun _ _ _ => rfl⟩

/-- Claim C17, evaluated on the code: `pop_front` never assigns `m_tail`.  The
copy of the list holding `7` has head and tail on its only node (cell 1); after
`pop_front()` the list is empty and the tail reference still refers to the
removed node. -/
theorem C17_pop_front_leaves_tail :
    Reachable ([⟨none, 7⟩, ⟨none, 7⟩] : Heap Nat) ⟨1, some 1, some 1⟩ ∧
      forward_list.pop_front ([⟨none, 7⟩, ⟨none, 7⟩] : Heap Nat) ⟨1, some 1, some 1⟩
        = .ok ([⟨none, 7⟩, ⟨none, 7⟩], ⟨0, none, some 1⟩) ∧
      ∀ (h : Heap Nat) (l : forward_list) (s : Heap Nat × forward_list),
        forward_list.pop_front h l = .ok s → s.2.m_tail = l.m_tail := by
  refine ⟨Reachable.copy 1 (Reachable.step (Reachable.default []) (Step.push_front [] {} 7)) rfl,
    rfl, ?_⟩
  intro h l s hs
  unfold forward_list.pop_front at hs
  by_cases hh : l.m_head = none
  · simp [hh, throw, throwThe, MonadExceptOf.throw, bind, Except.bind] at hs
  · simp only [hh, if_false, bind, Except.bind, pure, Except.pure] at hs
    cases hl : (load h l.m_head : Except (Exn (Heap Nat × forward_list)) _) with
    | error e => rw [hl] at hs; simp at hs
    | ok n =>
      rw [hl] at hs
      simp only at hs
      cases hs
      rfl

/-- Claim C18, evaluated on the code: `erase_after` never assigns `m_tail`.  The
copy of the list built from `{1, 2}` has its nodes in cells 2 and 3 and its tail
on cell 3, the last node; `erase_after` at the second-to-last node (cell 2)
removes cell 3 from the chain, and afterwards the tail reference still refers to
cell 3 and not to the position's node, which is the last node now. -/
theorem C18_erase_after_leaves_tail :
    Reachable ([⟨none, 2⟩, ⟨some 0, 1⟩, ⟨some 3, 1⟩, ⟨none, 2⟩] : Heap Nat)
        ⟨2, some 2, some 3⟩ ∧
      advance ([⟨none, 2⟩, ⟨some 0, 1⟩, ⟨some 3, 1⟩, ⟨none, 2⟩] : Heap Nat) 0
        (⟨2, some 2, some 3⟩ : forward_list).begin = .ok ⟨some 2⟩ ∧
      advance ([⟨none, 2⟩, ⟨some 0, 1⟩, ⟨some 3, 1⟩, ⟨none, 2⟩] : Heap Nat) 1
        (⟨2, some 2, some 3⟩ : forward_list).begin
        = .ok ⟨(⟨2, some 2, some 3⟩ : forward_list).m_tail⟩ ∧
      forward_list.erase_after ([⟨none, 2⟩, ⟨some 0, 1⟩, ⟨some 3, 1⟩, ⟨none, 2⟩] : Heap Nat)
          ⟨2, some 2, some 3⟩ ⟨some 2⟩
        = .ok (([⟨none, 2⟩, ⟨some 0, 1⟩, ⟨none, 1⟩, ⟨none, 2⟩], ⟨1, some 2, some 3⟩), ⟨none⟩) ∧
      advance ([⟨none, 2⟩, ⟨some 0, 1⟩, ⟨none, 1⟩, ⟨none, 2⟩] : Heap Nat) (1 - 1)
        (⟨1, some 2, some 3⟩ : forward_list).begin = .ok ⟨some 2⟩ ∧
      (⟨1, some 2, some 3⟩ : forward_list).m_tail ≠ some 2 :=
  ⟨Reachable.copy 2 (Reachable.initializer_list [] [1, 2]) rfl, rfl, rfl, rfl, rfl,
    by decide⟩

/-- Claim C19: on a reachable non-empty list with contents `xs` whose tail
reference refers to its last node, `emplace_after(position, v)` succeeds,
allocates a node that did not exist before, stores `v` in it, returns the
iterator on it, inserts it right behind the position and makes `size()` grow by
one.  With the position on the last node this newly inserted node becomes the
tail reference, and its `next` is null; with the position on an interior node the
tail reference is unchanged (and is not the new node); in both cases the tail
reference refers again to the last node of the chain.  (A position at an index
below `size()` exists only on a non-empty list.) -/
theorem C19_emplace_after_tail {h : Heap T} {l : forward_list} (hr : Reachable h l)
    (htail : advance h (l.size - 1) l.begin = .ok ⟨l.m_tail⟩)
    {i : Nat} {position : forward_list_iterator} (v : T) (hi : i < l.size)
    (hpos : advance h i l.begin = .ok position) :
    ∃ xs h1 l1 it, (∀ k, values (l.size + k) h l = .ok xs) ∧
      forward_list.emplace_after h l position v = .ok ((h1, l1), it) ∧
      it.m_node = some h.length ∧ h[h.length]? = none ∧
      (forward_list_iterator.deref h1 it : Except (Exn Unit) T) = .ok v ∧
      advance h1 (i + 1) l1.begin = .ok it ∧
      l1.size = l.size + 1 ∧
      (∀ k, values (l1.size + k) h1 l1 = .ok (xs.take (i + 1) ++ v :: xs.drop (i + 1))) ∧
      (i + 1 = l.size → l1.m_tail = it.m_node ∧
        (load h1 l1.m_tail : Except (Exn Unit) _) = .ok ⟨none, v⟩ ∧
        ∀ k, values (l1.size + k) h1 l1 = .ok (xs ++ [v])) ∧
      (i + 1 < l.size → l1.m_tail = l.m_tail ∧ l1.m_tail ≠ it.m_node) ∧
      advance h1 (l1.size - 1) l1.begin = .ok ⟨l1.m_tail⟩ := by
  obtain ⟨cs, hv⟩ := reachable_valid hr
  have hsz : l.m_size = cs.length := hv.size
  have hi2 : i < cs.length := by rw [← hsz]; exact hi
  obtain ⟨cs1, c, cs2, hsplit, hlen1, hadv⟩ := chain_index hv.chain hi2
  subst hsplit
  have hposeq : position = ⟨some c.1⟩ := by
    have : advance h i l.begin = advance h i ⟨l.m_head⟩ := rfl
    rw [this, hadv] at hpos
    exact (Except.ok.inj hpos).symm
  subst hposeq
  have hlen : l.m_size = i + 1 + cs2.length := by
    rw [hsz]; simp only [List.length_append, List.length_cons]; omega
  obtain ⟨h1, l1, hrun, hv1, hsz1, _, _, _, ht1, ht2⟩ := emplace_after_valid hv v
  have htail2 : advance h (l.m_size - 1) ⟨l.m_head⟩ = .ok ⟨l.m_tail⟩ := htail
  have hsz1b : l1.size - 1 = l.m_size := by
    show l1.m_size - 1 = l.m_size
    rw [hsz1]; rfl
  -- the new node in the new chain: index `i + 1`, value `v`
  have hchainN := hv1.chain
  have hreN : cs1 ++ c :: (h.length, v) :: cs2 = (cs1 ++ [c]) ++ (h.length, v) :: cs2 := by simp
  rw [hreN] at hchainN
  obtain ⟨mN, hmN1, hmN2⟩ := seg_split hchainN
  obtain ⟨hmN, nxN, hnN, hrestN⟩ := hmN2
  subst hmN
  have hadvN := advance_seg hmN1
  have hlenN : (cs1 ++ [c]).length = i + 1 := by simp [hlen1]
  rw [hlenN] at hadvN
  have hderef : (forward_list_iterator.deref h1 ⟨some h.length⟩ : Except (Exn Unit) T)
      = .ok v := by
    have hnN2 : h1[h.length]? = some ⟨nxN, v⟩ := hnN
    simp [forward_list_iterator.deref, load, hnN2, bind, Except.bind, pure, Except.pure]
  have hfresh : h[h.length]? = none := List.getElem?_eq_none (Nat.le_refl _)
  -- the contents
  have htake : (List.map Prod.snd (cs1 ++ c :: cs2)).take (i + 1) = cs1.map Prod.snd ++ [c.2] := by
    have : List.map Prod.snd (cs1 ++ c :: cs2)
        = (cs1.map Prod.snd ++ [c.2]) ++ cs2.map Prod.snd := by simp
    rw [this, List.take_left' (by simp [hlen1])]
  have hdrop : (List.map Prod.snd (cs1 ++ c :: cs2)).drop (i + 1) = cs2.map Prod.snd := by
    have : List.map Prod.snd (cs1 ++ c :: cs2)
        = (cs1.map Prod.snd ++ [c.2]) ++ cs2.map Prod.snd := by simp
    rw [this, List.drop_left' (by simp [hlen1])]
  have hvals : ∀ k, values (l1.size + k) h1 l1
      = .ok ((List.map Prod.snd (cs1 ++ c :: cs2)).take (i + 1)
          ++ v :: (List.map Prod.snd (cs1 ++ c :: cs2)).drop (i + 1)) := by
    intro k
    rw [htake, hdrop]
    have := values_valid hv1 k
    simpa using this
  refine ⟨List.map Prod.snd (cs1 ++ c :: cs2), h1, l1, ⟨some h.length⟩, values_valid hv, hrun,
    rfl, hfresh, hderef, hadvN, hsz1, hvals, ?_⟩
  rcases List.eq_nil_or_concat cs2 with hnil | ⟨cs3, z, hcat⟩
  · subst hnil
    have hlast : l.m_size - 1 = i := by
      simp only [List.length_nil] at hlen; omega
    rw [hlast, hadv] at htail2
    have htl : l.m_tail = some c.1 :=
      (congrArg forward_list_iterator.m_node (Except.ok.inj htail2)).symm
    have htl1 : l1.m_tail = some h.length := (ht1 htl).2
    have hnx0 : nxN = none := hrestN
    subst hnx0
    have hnN2 : h1[h.length]? = some ⟨none, v⟩ := hnN
    refine ⟨fun _ => ⟨htl1, ?_, ?_⟩, fun hlt => ?_, ?_⟩
    · rw [htl1]; exact load_ok hnN2
    · intro k
      have := hvals k
      rw [htake, hdrop] at this
      simpa using this
    · exfalso
      have hlt1 : i + 1 < l.m_size := hlt
      simp only [List.length_nil] at hlen
      omega
    · rw [hsz1b, htl1]
      have hl2 : i + 1 = l.m_size := by
        simp only [List.length_nil] at hlen
        omega
      rw [← hl2]
      exact hadvN
  · rw [List.concat_eq_append] at hcat
    subst hcat
    have hchain0 := hv.chain
    have hre0 : cs1 ++ c :: (cs3 ++ [z]) = (cs1 ++ c :: cs3) ++ [z] := by simp
    rw [hre0] at hchain0
    obtain ⟨m, hm1, hm2⟩ := seg_split hchain0
    obtain ⟨hm, nz, hnz, _⟩ := hm2
    subst hm
    have hadv0 := advance_seg hm1
    have hl0 : (cs1 ++ c :: cs3).length = l.m_size - 1 := by
      simp only [List.length_append, List.length_cons, List.length_nil] at hlen ⊢
      omega
    rw [hl0, htail2] at hadv0
    have htl : l.m_tail = some z.1 :=
      congrArg forward_list_iterator.m_node (Except.ok.inj hadv0)
    obtain ⟨_, hnd2⟩ := nodup_mid (chain_nodup hv.chain)
    have hzc : z.1 ≠ c.1 := hnd2 z (by simp)
    have htne : l.m_tail ≠ some c.1 := by
      rw [htl]
      intro e
      exact hzc (Option.some.inj e)
    have htl1 : l1.m_tail = l.m_tail := ht2 htne
    have hzlt : z.1 < h.length := getElem?_lt hnz
    refine ⟨fun heq => ?_, fun _ => ⟨htl1, ?_⟩, ?_⟩
    · exfalso
      have heq1 : i + 1 = l.m_size := heq
      simp only [List.length_append, List.length_cons, List.length_nil] at hlen
      omega
    · rw [htl1, htl]
      intro e
      have : z.1 = h.length := Option.some.inj e
      omega
    · rw [hsz1b, htl1, htl]
      have hchain := hv1.chain
      have hre : cs1 ++ c :: (h.length, v) :: (cs3 ++ [z])
          = (cs1 ++ c :: (h.length, v) :: cs3) ++ [z] := by simp
      rw [hre] at hchain
      obtain ⟨m, hm1, hm2⟩ := seg_split hchain
      obtain ⟨hm, _⟩ := hm2
      subst hm
      have := advance_seg hm1
      have hl2 : (cs1 ++ c :: (h.length, v) :: cs3).length = l.m_size := by
        simp only [List.length_append, List.length_cons, List.length_nil] at hlen ⊢
        omega
      rw [hl2] at this
      exact this

/-- A concrete instance of claim C19: `emplace_after` at the last node of the
copy of the list built from `{1, 2}`, whose tail is its last node (cell 3). -/
theorem C19_emplace_after_tail_witness :
    Reachable ([⟨none, 2⟩, ⟨some 0, 1⟩, ⟨some 3, 1⟩, ⟨none, 2⟩] : Heap Nat)
        ⟨2, some 2, some 3⟩ ∧
      advance ([⟨none, 2⟩, ⟨some 0, 1⟩, ⟨some 3, 1⟩, ⟨none, 2⟩] : Heap Nat)
          ((⟨2, some 2, some 3⟩ : forward_list).size - 1)
          (⟨2, some 2, some 3⟩ : forward_list).begin
        = .ok ⟨(⟨2, some 2, some 3⟩ : forward_list).m_tail⟩ ∧
      1 < (⟨2, some 2, some 3⟩ : forward_list).size ∧
      advance ([⟨none, 2⟩, ⟨some 0, 1⟩, ⟨some 3, 1⟩, ⟨none, 2⟩] : Heap Nat) 1
          (⟨2, some 2, some 3⟩ : forward_list).begin = .ok ⟨some 3⟩ ∧
      ∃ xs h1 l1 it,
        (∀ k, values ((⟨2, some 2, some 3⟩ : forward_list).size + k)
          ([⟨none, 2⟩, ⟨some 0, 1⟩, ⟨some 3, 1⟩, ⟨none, 2⟩] : Heap Nat) ⟨2, some 2, some 3⟩
          = .ok xs) ∧
        forward_list.emplace_after ([⟨none, 2⟩, ⟨some 0, 1⟩, ⟨some 3, 1⟩, ⟨none, 2⟩] : Heap Nat)
          ⟨2, some 2, some 3⟩ ⟨some 3⟩ 9 = .ok ((h1, l1), it) ∧
        it.m_node = some ([⟨none, 2⟩, ⟨some 0, 1⟩, ⟨some 3, 1⟩, ⟨none, 2⟩] : Heap Nat).length ∧
        ([⟨none, 2⟩, ⟨some 0, 1⟩, ⟨some 3, 1⟩, ⟨none, 2⟩] : Heap Nat)[
          ([⟨none, 2⟩, ⟨some 0, 1⟩, ⟨some 3, 1⟩, ⟨none, 2⟩] : Heap Nat).length]? = none ∧
        (forward_list_iterator.deref h1 it : Except (Exn Unit) Nat) = .ok 9 ∧
        advance h1 (1 + 1) l1.begin = .ok it ∧
        l1.size = (⟨2, some 2, some 3⟩ : forward_list).size + 1 ∧
        (∀ k, values (l1.size + k) h1 l1 = .ok (xs.take (1 + 1) ++ 9 :: xs.drop (1 + 1))) ∧
        (1 + 1 = (⟨2, some 2, some 3⟩ : forward_list).size → l1.m_tail = it.m_node ∧
          (load h1 l1.m_tail : Except (Exn Unit) _) = .ok ⟨none, 9⟩ ∧
          ∀ k, values (l1.size + k) h1 l1 = .ok (xs ++ [9])) ∧
        (1 + 1 < (⟨2, some 2, some 3⟩ : forward_list).size →
          l1.m_tail = (⟨2, some 2, some 3⟩ : forward_list).m_tail ∧ l1.m_tail ≠ it.m_node) ∧
        advance h1 (l1.size - 1) l1.begin = .ok ⟨l1.m_tail⟩ :=
  ⟨Reachable.copy 2 (Reachable.initializer_list [] [1, 2]) rfl, rfl, by decide, rfl,
    C19_emplace_after_tail (Reachable.copy 2 (Reachable.initializer_list [] [1, 2]) rfl)
      rfl 9 (by decide) rfl⟩

/-- Claim C20, evaluated on the code: `cbegin()` returns `m_tail`, not `m_head`.
On the list built from `{1, 2, 3}` (tail never set) `cbegin()` is the null
iterator and the loop from `cbegin()` to `cend()` visits nothing; on its copy
(tail on the last node) that loop visits only the last element. -/
theorem C20_cbegin_is_tail :
    Reachable ([⟨none, 3⟩, ⟨some 0, 2⟩, ⟨some 1, 1⟩] : Heap Nat) ⟨3, some 2, none⟩ ∧
      (⟨3, some 2, none⟩ : forward_list).begin = ⟨some 2⟩ ∧
      (⟨3, some 2, none⟩ : forward_list).cbegin = ⟨none⟩ ∧
      values 3 ([⟨none, 3⟩, ⟨some 0, 2⟩, ⟨some 1, 1⟩] : Heap Nat) ⟨3, some 2, none⟩
        = .ok [1, 2, 3] ∧
      cvalues 3 ([⟨none, 3⟩, ⟨some 0, 2⟩, ⟨some 1, 1⟩] : Heap Nat) ⟨3, some 2, none⟩
        = .ok [] ∧
      Reachable ([⟨none, 3⟩, ⟨some 0, 2⟩, ⟨some 1, 1⟩, ⟨some 4, 1⟩, ⟨some 5, 2⟩, ⟨none, 3⟩]
        : Heap Nat) ⟨3, some 3, some 5⟩ ∧
      values 3 ([⟨none, 3⟩, ⟨some 0, 2⟩, ⟨some 1, 1⟩, ⟨some 4, 1⟩, ⟨some 5, 2⟩, ⟨none, 3⟩]
        : Heap Nat) ⟨3, some 3, some 5⟩ = .ok [1, 2, 3] ∧
      cvalues 3 ([⟨none, 3⟩, ⟨some 0, 2⟩, ⟨some 1, 1⟩, ⟨some 4, 1⟩, ⟨some 5, 2⟩, ⟨none, 3⟩]
        : Heap Nat) ⟨3, some 3, some 5⟩ = .ok [3] ∧
      ∀ l : forward_list, l.cbegin = ⟨l.m_tail⟩ :=
  ⟨Reachable.initializer_list [] [1, 2, 3], rfl, rfl, rfl, rfl,
    Reachable.copy 3 (Reachable.initializer_list [] [1, 2, 3]) rfl, rfl, rfl, fun _ => rfl⟩

end my
